import Mathlib

/-!
Verification development for the `tt` repository.

Part 1 models the equation canonicalization engine described by the
specification (alias table, tokenizer, parser, canonical printer and the
equation facade `transform_eq_to_generic_schema` from `tt.eqtools`, whose
implementation is not part of the visible source tree; only its test file
`tests/eqtools/test_transform_eq_to_generic_schema.py` is).

Part 2 models the task-runner entry points of `ttasks.py`.
-/


/-! ## Definitions -/

/-- Modelled from the spec: the four operator kinds recognized by the
Alias Table of the missing `tt.eqtools` module (spec section 4.1). -/
inductive OpKind
  | NOT
  | AND
  | OR
  | XOR
deriving DecidableEq, Repr

/-- Modelled from the spec: tokens produced by the tokenizer of the missing
`tt.eqtools` module (spec section 3): identifier, operator, parentheses and
the equals separator. -/
inductive Token
  | ident (name : List Char)
  | op (k : OpKind)
  | lparen
  | rparen
  | equals
deriving DecidableEq, Repr

/-- Modelled from the spec: expression-tree nodes of the missing
`tt.eqtools` module (spec section 3): leaf variables, unary and binary
operator applications. -/
inductive Node
  | leaf (name : List Char)
  | unary (k : OpKind) (c : Node)
  | binary (k : OpKind) (a b : Node)
deriving DecidableEq, Repr

/-- Modelled from the spec: the three recoverable error kinds of the missing
`tt.eqtools` module (spec section 7). -/
inductive EqError
  | lexError
  | parseError
  | formatError
deriving DecidableEq, Repr

/-- Modelled from the spec: the recognized spellings of each operator kind
in the Alias Table of the missing `tt.eqtools` module (spec section 4.1). -/
def spellings : OpKind → List (List Char)
  | .NOT => ["NOT".data, "not".data, "~".data, "!".data]
  | .AND => ["AND".data, "and".data, "&".data, "*".data]
  | .OR => ["OR".data, "or".data, "|".data, "+".data]
  | .XOR => ["XOR".data, "xor".data, "^".data]

/-- Modelled from the spec: `resolveOperator` of the Alias Table of the
missing `tt.eqtools` module (spec section 4.1), a pure lookup from a
spelling to its operator kind. -/
def resolveOperator (w : List Char) : Option OpKind :=
  if w ∈ spellings .NOT then some .NOT
  else if w ∈ spellings .AND then some .AND
  else if w ∈ spellings .OR then some .OR
  else if w ∈ spellings .XOR then some .XOR
  else none

/-- Modelled from the spec: identifier characters are letters and digits
(spec section 3). -/
def isIdentChar (c : Char) : Bool :=
  c.isAlpha || c.isDigit

/-- Modelled from the spec: classification of a maximal identifier-character
word against the Alias Table (spec section 4.2): word-operator spellings
become operator tokens, everything else an identifier token. -/
def classifyWord (w : List Char) : Token :=
  match resolveOperator w with
  | some k => .op k
  | none => .ident w

/-- Modelled from the spec: classification of a single non-letter,
non-whitespace character (spec section 4.2): parens, equals, symbolic
operators; anything else is a `LexError`. -/
def symTok (c : Char) : Except EqError Token :=
  if c = '(' then .ok .lparen
  else if c = ')' then .ok .rparen
  else if c = '=' then .ok .equals
  else
    match resolveOperator [c] with
    | some k => .ok (.op k)
    | none => .error .lexError

/-- Modelled from the spec: fuel-indexed worker of the tokenizer of the
missing `tt.eqtools` module (spec section 4.2): skip whitespace; on a
letter greedily take the maximal identifier-character run and classify it;
otherwise classify a single character.  The fuel only bounds recursion
depth; each step consumes at least one character. -/
def tokF : Nat → List Char → Except EqError (List Token)
  | 0, _ => .error .lexError
  | _ + 1, [] => .ok []
  | f + 1, c :: cs =>
    if c.isWhitespace then tokF f cs
    else if c.isAlpha then
      match tokF f (cs.dropWhile isIdentChar) with
      | .ok ts => .ok (classifyWord (c :: cs.takeWhile isIdentChar) :: ts)
      | .error e => .error e
    else
      match symTok c with
      | .ok t =>
        match tokF f cs with
        | .ok ts => .ok (t :: ts)
        | .error e => .error e
      | .error e => .error e

/-- Modelled from the spec: `tokenize` of the missing `tt.eqtools` module
(spec section 4.2), over a character list.  Fuel `length + 1` always
suffices since every step consumes at least one character. -/
def tokenizeChars (cs : List Char) : Except EqError (List Token) :=
  tokF (cs.length + 1) cs

/-- Modelled from the spec: binding strength of each operator, tightest to
loosest NOT > AND > XOR > OR (spec section 4.3), encoded as the parser
level at which a binary operator is consumed (OR chains at level 0, XOR at
1, AND at 2; 3 is the unary/primary level). -/
def prec : OpKind → Nat
  | .OR => 0
  | .XOR => 1
  | .AND => 2
  | .NOT => 3

mutual

/-- Modelled from the spec: fuel-indexed precedence-climbing parser of the
missing `tt.eqtools` module (spec section 4.3).  At level 3 it parses a
unary/primary term (prefix NOT, identifier, or parenthesized expression
with the level reset to 0); below level 3 it parses the next level and
then folds a left-associative chain of binary operators of this level.
`none` means the fuel ran out, which cannot happen with sufficient fuel. -/
def parseF : Nat → Nat → List Token → Option (Except EqError (Node × List Token))
  | 0, _, _ => none
  | f + 1, l, ts =>
    if 3 ≤ l then
      match ts with
      | [] => some (.error .parseError)
      | .op .NOT :: rest =>
        match parseF f 3 rest with
        | some (.ok (c, r)) => some (.ok (.unary .NOT c, r))
        | x => x
      | .ident n :: rest => some (.ok (.leaf n, rest))
      | .lparen :: rest =>
        match parseF f 0 rest with
        | some (.ok (c, .rparen :: r)) => some (.ok (c, r))
        | some (.ok _) => some (.error .parseError)
        | x => x
      | _ => some (.error .parseError)
    else
      match parseF f (l + 1) ts with
      | some (.ok (first, r)) => chainF f l first r
      | x => x

/-- Modelled from the spec: the left-associative binary-operator chain of
the precedence-climbing parser (spec section 4.3): while the next token is
a binary operator of the current level, consume it, parse its right
operand one level tighter, and extend the left-leaning tree. -/
def chainF : Nat → Nat → Node → List Token → Option (Except EqError (Node × List Token))
  | 0, _, _, _ => none
  | f + 1, l, acc, ts =>
    match ts with
    | .op k :: rest =>
      if prec k = l then
        match parseF f (l + 1) rest with
        | some (.ok (rhs, r)) => chainF f l (.binary k acc rhs) r
        | x => x
      else some (.ok (acc, ts))
    | _ => some (.ok (acc, ts))

end

/-- Modelled from the spec: `parse` of the missing `tt.eqtools` module
(spec section 4.3): parse a complete expression from the token sequence,
failing with `ParseError` on an empty sequence, on malformed input, or
when trailing tokens remain. -/
def parseToks (ts : List Token) : Except EqError Node :=
  match parseF (4 * ts.length + 4) 0 ts with
  | some (.ok (t, [])) => .ok t
  | some (.ok (_, _ :: _)) => .error .parseError
  | some (.error e) => .error e
  | none => .error .parseError

/-- Modelled from the spec: the binding strength of a tree's top node, used
by the canonical printer (spec section 4.4); leaves bind tightest. -/
def topPrec : Node → Nat
  | .leaf _ => 4
  | .unary _ _ => 3
  | .binary k _ _ => prec k

/-- Modelled from the spec: the canonical single-character symbol of each
operator kind used by the printer (spec section 4.4). -/
def sym : OpKind → Char
  | .NOT => '~'
  | .AND => '&'
  | .XOR => '^'
  | .OR => '|'

/-- Modelled from the spec: wrap a rendering in parentheses when required
(spec section 4.4). -/
def wrapIf : Bool → List Char → List Char
  | true, s => '(' :: (s ++ [')'])
  | false, s => s

/-- Modelled from the spec: the canonical printer of the missing
`tt.eqtools` module (spec section 4.4): minimal parenthesization, no
whitespace; a NOT child is wrapped exactly when it is a binary node; a
binary operand is wrapped exactly when its top binding strength is
strictly lower than the operator's, or equal and the operand is on the
right. -/
def printNode : Node → List Char
  | .leaf n => n
  | .unary _ c => '~' :: wrapIf (decide (topPrec c < 3)) (printNode c)
  | .binary k a b =>
    wrapIf (decide (topPrec a < prec k)) (printNode a) ++
      sym k :: wrapIf (decide (topPrec b ≤ prec k)) (printNode b)

/-- Modelled from the spec: the token sequence of the canonical printed
form of a tree, mirroring `printNode` (used to state the round-trip
facts). -/
def wrapToksIf : Bool → List Token → List Token
  | true, ts => .lparen :: (ts ++ [.rparen])
  | false, ts => ts

/-- Modelled from the spec: tokens of the canonical printed form, in
one-to-one correspondence with `printNode`. -/
def toksN : Node → List Token
  | .leaf n => [.ident n]
  | .unary _ c => .op .NOT :: wrapToksIf (decide (topPrec c < 3)) (toksN c)
  | .binary k a b =>
    wrapToksIf (decide (topPrec a < prec k)) (toksN a) ++
      .op k :: wrapToksIf (decide (topPrec b ≤ prec k)) (toksN b)

/-- Modelled from the spec: the equation facade
`transform_eq_to_generic_schema` of the missing `tt.eqtools` module (spec
section 4.5): fail with `EquationFormatError` unless the separator `=`
occurs exactly once and the left side tokenizes to exactly one identifier
token; then tokenize, parse and print the right side and reassemble
`lhs=canonicalRight`. -/
def transform_eq_to_generic_schema (raw : String) : Except EqError String :=
  let cs := raw.data
  if cs.count '=' = 1 then
    match tokenizeChars (cs.takeWhile (fun c => c != '=')) with
    | .ok [Token.ident n] =>
      match tokenizeChars ((cs.dropWhile (fun c => c != '=')).tail) with
      | .ok ts =>
        match parseToks ts with
        | .ok t => .ok (String.mk (n ++ '=' :: printNode t))
        | .error e => .error e
      | .error e => .error e
    | _ => .error .formatError
  else .error .formatError

/-- Exceptions relevant to `ttasks.main` (src/ttasks.py:25-34): the three
project-defined error types and any other `Exception` subclass, identified
by a tag. -/
inductive PyExc
  | appVeyorApiError
  | subprocessFailureError
  | testFailureError
  | otherException (tag : Nat)
deriving DecidableEq, Repr

/-- Outcome of running `ttasks.main`: either it returns an exit code, or an
exception propagates out of it (`notice` records whether the
"Received unexpected exception; re-raising it." message was printed
first). -/
inductive MainOutcome
  | returns (code : Nat)
  | raises (e : PyExc) (notice : Bool)
deriving DecidableEq, Repr

/-- The `try`/`except` structure of `main` (src/ttasks.py:246-255): a body
that either produces an exit code or raises; the first handler turns the
three project errors into exit code 1, the second prints a notice and
re-raises anything else. -/
def tryExceptMain (body : Except PyExc Nat) : MainOutcome :=
  match body with
  | .ok n => .returns n
  | .error e =>
    if e = .appVeyorApiError ∨ e = .subprocessFailureError ∨ e = .testFailureError then
      .returns 1
    else
      .raises e true

/-- `main` (src/ttasks.py:236-255): inside the `try` block, parse the
command-line arguments, look up and run the selected task, and return 0;
the surrounding handlers are `tryExceptMain`.  Argument parsing and the
task run are abstracted as the exception-or-unit results they produce. -/
def ttasksMain (parsedArgs : Except PyExc Unit) (taskRun : Except PyExc Unit) : MainOutcome :=
  tryExceptMain (do parsedArgs; taskRun; pure 0)

/-- `_cwd` (src/ttasks.py:37-43): a context-managed block modelled by
explicit state passing of the working directory.  The body starts in
`newCwd` (after `os.chdir(new_cwd)`) and reports the working directory it
ends in; on normal completion `os.chdir(old_cwd)` restores the directory
saved on entry, while an exception propagates with no restoration (there
is no try/finally around the yield). -/
def _cwd (newCwd : String) (body : String → Except PyExc Unit × String)
    (cwd0 : String) : Except PyExc Unit × String :=
  let oldCwd := cwd0
  match body newCwd with
  | (.ok _, _) => (.ok (), oldCwd)
  | (.error e, cwdAtRaise) => (.error e, cwdAtRaise)

/-- A valid identifier: nonempty, leading letter, then letters/digits. -/
def isIdentStr (cs : List Char) : Bool :=
  match cs with
  | [] => false
  | c :: r => c.isAlpha && r.all isIdentChar

/-- Prepend a token to a tokenizer result. -/
def consTok (t : Token) : Except EqError (List Token) → Except EqError (List Token)
  | .ok ts => .ok (t :: ts)
  | .error e => .error e

/-- Prepend a token list to a tokenizer result. -/
def appTok (pre : List Token) : Except EqError (List Token) → Except EqError (List Token)
  | .ok ts => .ok (pre ++ ts)
  | .error e => .error e

/-- Every identifier token the tokenizer emits holds a valid identifier
that is not a recognized operator spelling. -/
def GoodTok : Token → Prop
  | .ident n => isIdentStr n = true ∧ resolveOperator n = none
  | _ => True

/-- Well-formed expression trees: exactly the trees the parser can build
from well-formed tokens (leaf names are identifiers that are not operator
spellings, unary nodes are NOT, binary nodes carry binary operators). -/
inductive Good : Node → Prop
  | leaf {n : List Char} : isIdentStr n = true → resolveOperator n = none → Good (.leaf n)
  | unary {c : Node} : Good c → Good (.unary .NOT c)
  | binary {k : OpKind} {a b : Node} : prec k ≤ 2 → Good a → Good b → Good (.binary k a b)

/-- Size of an expression tree. -/
def nsize : Node → Nat
  | .leaf _ => 1
  | .unary _ c => nsize c + 1
  | .binary _ a b => nsize a + nsize b + 1

/-- Token lists that make a binary chain at level `l` stop: nothing, a
closing paren, or an operator that chains at a strictly looser level. -/
def restOK (l : Nat) (rest : List Token) : Prop :=
  rest = [] ∨ rest.head? = some .rparen ∨ ∃ k, rest.head? = some (.op k) ∧ prec k < l

/-- First operand of the maximal left-leaning chain of `k`-operators. -/
def lfirst (k : OpKind) : Node → Node
  | .binary k2 a b => if k2 = k then lfirst k a else .binary k2 a b
  | .leaf n => .leaf n
  | .unary k2 c => .unary k2 c

/-- Remaining operands of the maximal left-leaning chain of `k`-operators,
left to right. -/
def lops (k : OpKind) : Node → List Node
  | .binary k2 a b => if k2 = k then lops k a ++ [b] else []
  | _ => []

/-- Character lists whose head (if any) cannot extend an identifier. -/
abbrev headNotIdent (rest : List Char) : Prop :=
  rest = [] ∨ ∃ c cs, rest = c :: cs ∧ isIdentChar c = false

/-- Modelled from the spec: the output expression grammar of section 6:
`identifier | "~" expression | "(" expression ")" |
expression ("&"|"^"|"|") expression`. -/
inductive ExprStr : List Char → Prop
  | ident {n : List Char} : isIdentStr n = true → ExprStr n
  | not {s : List Char} : ExprStr s → ExprStr ('~' :: s)
  | paren {s : List Char} : ExprStr s → ExprStr ('(' :: (s ++ [')']))
  | bin {s1 s2 : List Char} {c : Char} : ExprStr s1 → (c = '&' ∨ c = '^' ∨ c = '|') →
      ExprStr s2 → ExprStr (s1 ++ c :: s2)

/-- Modelled from the spec: the facade contract's failure condition in the
spec's words: the separator `=` is missing or appears more than once, or
the left side is not a single valid identifier (itself tokenized and
checked to be exactly one identifier token). -/
def EquationFormatViolation (raw : String) : Prop :=
  raw.data.count '=' ≠ 1 ∨
    ¬∃ nm, tokenizeChars (raw.data.takeWhile (fun c => c != '=')) = .ok [Token.ident nm]

/-- Modelled from the spec: one surface element of an equation string — a
whitespace run, an identifier word, one spelling of an operator, a paren,
or the equals separator (spec sections 4.1, 4.2). -/
inductive Lexeme
  | ws (s : List Char)
  | word (n : List Char)
  | opSp (k : OpKind) (sp : List Char)
  | lp
  | rp
  | eq
deriving DecidableEq, Repr

/-- The characters a lexeme contributes to the equation string. -/
def Lexeme.render : Lexeme → List Char
  | .ws s => s
  | .word n => n
  | .opSp _ sp => sp
  | .lp => ['(']
  | .rp => [')']
  | .eq => ['=']

/-- The token a lexeme lexes to (whitespace lexes to nothing). -/
def Lexeme.toTok : Lexeme → Option Token
  | .ws _ => none
  | .word n => some (.ident n)
  | .opSp k _ => some (.op k)
  | .lp => some .lparen
  | .rp => some .rparen
  | .eq => some .equals

/-- Whether a lexeme is a whitespace run. -/
def Lexeme.isWs : Lexeme → Bool
  | .ws _ => true
  | _ => false

/-- The equation string of a lexeme sequence. -/
def renderL (ls : List Lexeme) : List Char := ls.flatMap Lexeme.render

/-- The token sequence of a lexeme sequence. -/
def toksL (ls : List Lexeme) : List Token := ls.filterMap Lexeme.toTok

/-- Well-formed lexemes: nonempty all-whitespace runs, valid non-operator
identifier words, and registered operator spellings. -/
def goodLexeme : Lexeme → Bool
  | .ws s => !s.isEmpty && s.all (fun c => c.isWhitespace)
  | .word n => isIdentStr n && (resolveOperator n).isNone
  | .opSp k sp => decide (sp ∈ spellings k)
  | _ => true

/-- Lexemes rendered entirely from identifier characters (word operators and
identifiers). -/
def wordy : Lexeme → Bool
  | .word _ => true
  | .opSp _ sp => !sp.isEmpty && sp.all isIdentChar
  | _ => false

/-- Lexemes whose rendering starts with an identifier character. -/
def startsIdent : Lexeme → Bool
  | .word _ => true
  | .opSp _ sp =>
    match sp with
    | c :: _ => isIdentChar c
    | [] => false
  | _ => false

/-- A lexeme sequence is well separated when no word-form lexeme is
immediately followed by a lexeme starting with an identifier character (the
greedy tokenizer would merge them otherwise). -/
def wellSeparated : List Lexeme → Bool
  | a :: b :: rest => !(wordy a && startsIdent b) && wellSeparated (b :: rest)
  | _ => true

/-- The facade computed over a token sequence: the same split, left-side
validation and right-side parse, but after tokenization. -/
def tokTransform (ts : List Token) : Except EqError String :=
  if ts.count .equals = 1 then
    match ts.takeWhile (fun tok => tok != .equals) with
    | [Token.ident n] =>
      match parseToks ((ts.dropWhile (fun tok => tok != .equals)).tail) with
      | .ok t => .ok (String.mk (n ++ '=' :: printNode t))
      | .error e => .error e
    | _ => .error .formatError
  else .error .formatError

/-! ## Theorems -/

theorem identChar_of_alpha {c : Char} (h : c.isAlpha = true) : isIdentChar c = true := by
  simp [isIdentChar, h]

theorem whitespace_cases {c : Char} (h : c.isWhitespace = true) :
    c = ' ' ∨ c = '\t' ∨ c = '\r' ∨ c = '\n' := by
  simpa [Char.isWhitespace, or_assoc] using h

theorem identChar_not_ws {c : Char} (h : isIdentChar c = true) : c.isWhitespace = false := by
  cases hw : c.isWhitespace with
  | false => rfl
  | true =>
    rcases whitespace_cases hw with h1 | h1 | h1 | h1 <;> subst h1 <;> exact absurd h (by decide)

theorem identChar_ne_eq {c : Char} (h : isIdentChar c = true) : c ≠ '=' := by
  intro h1; subst h1; exact absurd h (by decide)

theorem alpha_not_ws {c : Char} (h : c.isAlpha = true) : c.isWhitespace = false :=
  identChar_not_ws (identChar_of_alpha h)

/-- Splitting `takeWhile` over an append whose left part is all-true and
whose right part starts false (or is empty). -/
theorem takeWhile_app_eq {α : Type} {p : α → Bool} {a b : List α}
    (ha : ∀ c ∈ a, p c = true)
    (hb : b = [] ∨ ∃ c cs, b = c :: cs ∧ p c = false) :
    (a ++ b).takeWhile p = a ∧ (a ++ b).dropWhile p = b := by
  have hta : a.takeWhile p = a := List.takeWhile_eq_self_iff.mpr ha
  have hda : a.dropWhile p = [] := by
    have := List.takeWhile_append_dropWhile (p := p) (l := a)
    rw [hta] at this
    simpa using this
  have htb : b.takeWhile p = [] := by
    rcases hb with rfl | ⟨c, cs, rfl, hc⟩
    · rfl
    · simp [List.takeWhile_cons, hc]
  have hdb : b.dropWhile p = b := by
    rcases hb with rfl | ⟨c, cs, rfl, hc⟩
    · rfl
    · simp [List.dropWhile_cons, hc]
  constructor
  · rw [List.takeWhile_append, hta]
    simp [htb]
  · rw [List.dropWhile_append, hda, hdb]
    simp

theorem tokenizeChars_eq (cs : List Char) : tokenizeChars cs = tokF (cs.length + 1) cs := rfl

theorem tokF_fuel : ∀ f g (cs : List Char), cs.length < f → cs.length < g →
    tokF f cs = tokF g cs := by
  intro f
  induction f with
  | zero => intro g cs h _; omega
  | succ f ih =>
    intro g cs hf hg
    rcases g with _ | g
    · omega
    rcases cs with _ | ⟨c, cs⟩
    · rfl
    have hlen : cs.length < f := by simp at hf; omega
    have hleng : cs.length < g := by simp at hg; omega
    have hd : (cs.dropWhile isIdentChar).length ≤ cs.length :=
      (List.dropWhile_sublist _).length_le
    simp only [tokF]
    rw [ih g cs hlen hleng, ih g (cs.dropWhile isIdentChar) (by omega) (by omega)]

theorem tokF_eq_tokenize {f : Nat} {cs : List Char} (h : cs.length < f) :
    tokF f cs = tokenizeChars cs :=
  tokF_fuel f (cs.length + 1) cs h (by omega)

theorem tokenize_nil : tokenizeChars [] = .ok [] := rfl

theorem tokenize_ws_step {c : Char} (h : c.isWhitespace = true) (cs : List Char) :
    tokenizeChars (c :: cs) = tokenizeChars cs := by
  rw [tokenizeChars_eq (c :: cs)]
  simp only [List.length_cons, tokF, h, if_true]
  exact (tokenizeChars_eq cs).symm

theorem tokenize_sym_step {c : Char} (hw : c.isWhitespace = false) (ha : c.isAlpha = false)
    (cs : List Char) :
    tokenizeChars (c :: cs) =
      match symTok c with
      | .ok t => consTok t (tokenizeChars cs)
      | .error e => .error e := by
  rw [tokenizeChars_eq (c :: cs)]
  simp only [List.length_cons, tokF, hw, ha, Bool.false_eq_true, if_false]
  cases symTok c with
  | ok t =>
    simp only [consTok]
    rw [tokenizeChars_eq cs]
  | error e => rfl

theorem tokenize_word_step {w rest : List Char} (hw : isIdentStr w = true)
    (hb : rest = [] ∨ ∃ c cs, rest = c :: cs ∧ isIdentChar c = false) :
    tokenizeChars (w ++ rest) = consTok (classifyWord w) (tokenizeChars rest) := by
  rcases w with _ | ⟨c, wt⟩
  · exact absurd hw (by decide)
  have h' := hw
  simp only [isIdentStr, Bool.and_eq_true, List.all_eq_true] at h'
  obtain ⟨hca, hwt⟩ := h'
  have hsplit := takeWhile_app_eq (p := isIdentChar) (a := wt) (b := rest) hwt hb
  rw [tokenizeChars_eq ((c :: wt) ++ rest)]
  simp only [List.cons_append, List.length_cons, List.length_append, tokF,
    alpha_not_ws hca, hca, Bool.false_eq_true, if_false, if_true,
    List.append_eq, hsplit.1, hsplit.2]
  rw [tokF_eq_tokenize (by omega)]
  cases tokenizeChars rest with
  | ok ts => rfl
  | error e => rfl

theorem classifyWord_good {c : Char} {cs : List Char} (hc : c.isAlpha = true)
    (hall : ∀ x ∈ cs, isIdentChar x = true) : GoodTok (classifyWord (c :: cs)) := by
  unfold classifyWord
  cases hr : resolveOperator (c :: cs) with
  | some k => trivial
  | none =>
    refine ⟨?_, hr⟩
    simp only [isIdentStr, Bool.and_eq_true, List.all_eq_true]
    exact ⟨hc, hall⟩

theorem symTok_good {c : Char} {t : Token} (h : symTok c = .ok t) : GoodTok t := by
  unfold symTok at h
  split at h
  · cases h; trivial
  split at h
  · cases h; trivial
  split at h
  · cases h; trivial
  cases hr : resolveOperator [c] with
  | some k => rw [hr] at h; cases h; trivial
  | none => rw [hr] at h; simp at h

theorem symTok_err {c : Char} {e : EqError} (h : symTok c = .error e) : e = .lexError := by
  unfold symTok at h
  split at h
  · simp at h
  split at h
  · simp at h
  split at h
  · simp at h
  cases hr : resolveOperator [c] with
  | some k => rw [hr] at h; simp at h
  | none => rw [hr] at h; cases h; rfl

theorem tokF_good : ∀ f (cs : List Char) ts, tokF f cs = .ok ts → ∀ t ∈ ts, GoodTok t := by
  intro f
  induction f with
  | zero => intro cs ts h; simp [tokF] at h
  | succ f ih =>
    intro cs ts h t ht
    rcases cs with _ | ⟨c, cs⟩
    · simp [tokF] at h; subst h; simp at ht
    simp only [tokF] at h
    by_cases hws : c.isWhitespace = true
    · rw [if_pos hws] at h
      exact ih cs ts h t ht
    rw [if_neg hws] at h
    by_cases hal : c.isAlpha = true
    · rw [if_pos hal] at h
      cases he : tokF f (cs.dropWhile isIdentChar) with
      | ok ts' =>
        rw [he] at h
        simp only [Except.ok.injEq] at h
        subst h
        rcases List.mem_cons.mp ht with rfl | ht'
        · exact classifyWord_good hal fun x hx => List.mem_takeWhile_imp hx
        · exact ih _ ts' he t ht'
      | error e => rw [he] at h; simp at h
    rw [if_neg hal] at h
    cases hs : symTok c with
    | ok t' =>
      rw [hs] at h
      cases he : tokF f cs with
      | ok ts' =>
        rw [he] at h
        simp only [Except.ok.injEq] at h
        subst h
        rcases List.mem_cons.mp ht with rfl | ht'
        · exact symTok_good hs
        · exact ih cs ts' he t ht'
      | error e => rw [he] at h; simp at h
    | error e => rw [hs] at h; simp at h

theorem tokenize_good {cs : List Char} {ts : List Token} (h : tokenizeChars cs = .ok ts) :
    ∀ t ∈ ts, GoodTok t :=
  tokF_good _ cs ts h

theorem tokF_err : ∀ f (cs : List Char) e, tokF f cs = .error e → e = .lexError := by
  intro f
  induction f with
  | zero => intro cs e h; cases h; rfl
  | succ f ih =>
    intro cs e h
    rcases cs with _ | ⟨c, cs⟩
    · simp [tokF] at h
    simp only [tokF] at h
    by_cases hws : c.isWhitespace = true
    · rw [if_pos hws] at h
      exact ih cs e h
    rw [if_neg hws] at h
    by_cases hal : c.isAlpha = true
    · rw [if_pos hal] at h
      cases he : tokF f (cs.dropWhile isIdentChar) with
      | ok ts' => rw [he] at h; simp at h
      | error e' =>
        rw [he] at h
        cases h
        exact ih _ _ he
    rw [if_neg hal] at h
    cases hs : symTok c with
    | ok t' =>
      rw [hs] at h
      cases he : tokF f cs with
      | ok ts' => rw [he] at h; simp at h
      | error e' =>
        rw [he] at h
        cases h
        exact ih cs _ he
    | error e' =>
      rw [hs] at h
      cases h
      exact symTok_err hs

theorem tokenize_err {cs : List Char} {e : EqError} (h : tokenizeChars cs = .error e) :
    e = .lexError :=
  tokF_err _ cs e h

/-- Combined soundness of the fuel-indexed parser: any error it reports is
a `ParseError`; any success consumes at least one token (strictly fewer
remain), and from well-formed tokens it builds a well-formed tree, leaving
well-formed tokens. -/
theorem parse_sound : ∀ f,
    (∀ l ts r, parseF f l ts = some r →
      (∀ e, r = .error e → e = .parseError) ∧
      (∀ t rest, r = .ok (t, rest) →
        rest.length < ts.length ∧
        ((∀ tok ∈ ts, GoodTok tok) → Good t ∧ ∀ tok ∈ rest, GoodTok tok))) ∧
    (∀ l acc ts r, l ≤ 2 → chainF f l acc ts = some r →
      (∀ e, r = .error e → e = .parseError) ∧
      (∀ t rest, r = .ok (t, rest) →
        rest.length ≤ ts.length ∧
        (Good acc → (∀ tok ∈ ts, GoodTok tok) → Good t ∧ ∀ tok ∈ rest, GoodTok tok))) := by
  intro f
  induction f with
  | zero =>
    constructor
    · intro l ts r h; simp [parseF] at h
    · intro l acc ts r _ h; simp [chainF] at h
  | succ f ih =>
    obtain ⟨ihp, ihc⟩ := ih
    constructor
    · intro l ts r h
      simp only [parseF] at h
      split at h
      · -- primary/unary level
        split at h
        · -- empty token list
          cases h
          exact ⟨fun e he => by cases he; rfl, fun t rest hr => by simp at hr⟩
        · -- leading NOT
          rename_i rest
          split at h
          · rename_i c r1 heq
            cases h
            refine ⟨fun e he => by simp at he, fun t rest1 hr => ?_⟩
            rw [Except.ok.injEq, Prod.mk.injEq] at hr
            obtain ⟨rfl, rfl⟩ := hr
            obtain ⟨hlen, hgood⟩ := (ihp 3 rest _ heq).2 c r1 rfl
            refine ⟨by simp only [List.length_cons]; omega, fun hg => ?_⟩
            obtain ⟨hgc, hgr⟩ := hgood fun tok htok => hg tok (List.mem_cons_of_mem _ htok)
            exact ⟨Good.unary hgc, hgr⟩
          · rename_i hexcl
            have := ihp 3 _ r h
            refine ⟨this.1, fun t rest1 hr => ?_⟩
            obtain ⟨hlen, hgood⟩ := this.2 t rest1 hr
            refine ⟨by simp only [List.length_cons]; omega, fun hg => ?_⟩
            exact hgood fun tok htok => hg tok (List.mem_cons_of_mem _ htok)
        · -- leading identifier
          rename_i n rest
          cases h
          refine ⟨fun e he => by simp at he, fun t rest1 hr => ?_⟩
          rw [Except.ok.injEq, Prod.mk.injEq] at hr
          obtain ⟨rfl, rfl⟩ := hr
          refine ⟨by simp, fun hg => ?_⟩
          have hid : GoodTok (.ident n) := hg _ (by simp)
          exact ⟨Good.leaf hid.1 hid.2, fun tok htok => hg tok (List.mem_cons_of_mem _ htok)⟩
        · -- leading left paren
          rename_i rest
          split at h
          · -- subexpression closed by a right paren
            rename_i c r2 heq
            cases h
            refine ⟨fun e he => by simp at he, fun t rest1 hr => ?_⟩
            rw [Except.ok.injEq, Prod.mk.injEq] at hr
            obtain ⟨rfl, rfl⟩ := hr
            obtain ⟨hlen, hgood⟩ := (ihp 0 rest _ heq).2 c (.rparen :: r2) rfl
            refine ⟨by simp only [List.length_cons] at hlen ⊢; omega, fun hg => ?_⟩
            obtain ⟨hgc, hgr⟩ := hgood fun tok htok => hg tok (List.mem_cons_of_mem _ htok)
            exact ⟨hgc, fun tok htok => hgr tok (List.mem_cons_of_mem _ htok)⟩
          · -- subexpression not closed by a right paren
            cases h
            exact ⟨fun e he => by cases he; rfl, fun t rest1 hr => by simp at hr⟩
          · -- propagated failure
            rename_i hexcl
            have := ihp 0 rest r h
            refine ⟨this.1, fun t rest1 hr => (hexcl (t, rest1) (hr ▸ h)).elim⟩
        · -- any other leading token
          cases h
          exact ⟨fun e he => by cases he; rfl, fun t rest hr => by simp at hr⟩
      · -- binary level: parse one level tighter, then chain
        rename_i hl
        split at h
        · rename_i first r1 heq
          have hl2 : l ≤ 2 := by omega
          have hch := ihc l first r1 r hl2 h
          refine ⟨hch.1, fun t rest1 hr => ?_⟩
          obtain ⟨hlen1, hgood1⟩ := (ihp (l + 1) ts _ heq).2 first r1 rfl
          obtain ⟨hlen2, hgood2⟩ := hch.2 t rest1 hr
          refine ⟨by omega, fun hg => ?_⟩
          obtain ⟨hgf, hgr1⟩ := hgood1 hg
          exact hgood2 hgf hgr1
        · rename_i hexcl
          have := ihp (l + 1) ts r h
          exact ⟨this.1, fun t rest1 hr => this.2 t rest1 hr⟩
    · intro l acc ts r hl h
      simp only [chainF] at h
      split at h
      · -- leading operator token
        rename_i k rest
        split at h
        · -- operator of this level: consume and continue the chain
          rename_i hk
          split at h
          · rename_i rhs r1 heq
            have hch := ihc l (.binary k acc rhs) r1 r hl h
            refine ⟨hch.1, fun t rest1 hr => ?_⟩
            obtain ⟨hlen1, hgood1⟩ := (ihp (l + 1) rest _ heq).2 rhs r1 rfl
            obtain ⟨hlen2, hgood2⟩ := hch.2 t rest1 hr
            refine ⟨by simp only [List.length_cons]; omega, fun hacc hg => ?_⟩
            obtain ⟨hgrhs, hgr1⟩ := hgood1 fun tok htok => hg tok (List.mem_cons_of_mem _ htok)
            exact hgood2 (Good.binary (hk ▸ hl) hacc hgrhs) hgr1
          · rename_i hexcl
            have := ihp (l + 1) rest r h
            refine ⟨this.1, fun t rest1 hr => (hexcl t rest1 (hr ▸ h)).elim⟩
        · -- operator of a different level: stop
          cases h
          refine ⟨fun e he => by simp at he, fun t rest1 hr => ?_⟩
          rw [Except.ok.injEq, Prod.mk.injEq] at hr
          obtain ⟨rfl, rfl⟩ := hr
          exact ⟨le_refl _, fun hacc hg => ⟨hacc, hg⟩⟩
      · -- no leading operator: stop
        cases h
        refine ⟨fun e he => by simp at he, fun t rest1 hr => ?_⟩
        rw [Except.ok.injEq, Prod.mk.injEq] at hr
        obtain ⟨rfl, rfl⟩ := hr
        exact ⟨le_refl _, fun hacc hg => ⟨hacc, hg⟩⟩

/-- Fuel monotonicity: a determined parse result is stable under adding
fuel. -/
theorem parse_mono : ∀ f,
    (∀ g l ts r, f ≤ g → parseF f l ts = some r → parseF g l ts = some r) ∧
    (∀ g l acc ts r, f ≤ g → chainF f l acc ts = some r → chainF g l acc ts = some r) := by
  intro f
  induction f with
  | zero =>
    constructor
    · intro g l ts r _ h; simp [parseF] at h
    · intro g l acc ts r _ h; simp [chainF] at h
  | succ f ih =>
    obtain ⟨ihp, ihc⟩ := ih
    constructor
    · intro g l ts r hg h
      rcases g with _ | g
      · omega
      have hfg : f ≤ g := by omega
      simp only [parseF] at h
      split at h
      · rename_i hl
        split at h
        · -- empty token list
          simp only [parseF, hl, if_true]
          exact h
        · -- leading NOT
          rename_i rest
          simp only [parseF, hl, if_true]
          split at h
          · rename_i c r1 heq
            rw [ihp g _ _ _ hfg heq]
            exact h
          · rename_i hexcl
            rcases r with e | ⟨t, rest1⟩
            · rw [ihp g _ _ _ hfg h]
            · exact ((hexcl t rest1 h).elim)
        · -- leading identifier
          rename_i n rest
          simp only [parseF, hl, if_true]
          exact h
        · -- leading left paren
          rename_i rest
          simp only [parseF, hl, if_true]
          split at h
          · rename_i c r2 heq
            rw [ihp g _ _ _ hfg heq]
            exact h
          · rename_i a hexcl heq
            rw [ihp g _ _ _ hfg heq]
            rcases a with ⟨c, r2⟩
            rcases r2 with _ | ⟨tok, r3⟩
            · exact h
            · cases tok <;> first
                | exact h
                | exact ((hexcl c r3 rfl).elim)
          · rename_i hexcl
            rcases r with e | ⟨t, rest1⟩
            · rw [ihp g _ _ _ hfg h]
            · exact ((hexcl (t, rest1) h).elim)
        · -- any other leading token
          rename_i hx1 hx2 hx3 hx4
          rcases ts with _ | ⟨tok, rest⟩
          · exact (hx1 rfl).elim
          · cases tok
            · exact (hx3 _ _ rfl).elim
            · rename_i k
              cases k
              · exact (hx2 _ rfl).elim
              all_goals
                simp only [parseF, hl, if_true]
                exact h
            · exact (hx4 _ rfl).elim
            · simp only [parseF, hl, if_true]
              exact h
            · simp only [parseF, hl, if_true]
              exact h
      · -- binary level
        rename_i hl
        simp only [parseF, hl, if_false]
        split at h
        · rename_i first r1 heq
          rw [ihp g _ _ _ hfg heq]
          exact ihc g _ _ _ _ hfg h
        · rename_i hexcl
          rcases r with e | ⟨t, rest1⟩
          · rw [ihp g _ _ _ hfg h]
          · exact ((hexcl t rest1 h).elim)
    · intro g l acc ts r hg h
      rcases g with _ | g
      · omega
      have hfg : f ≤ g := by omega
      simp only [chainF] at h
      split at h
      · rename_i k rest
        simp only [chainF]
        split at h
        · rename_i hk
          rw [if_pos hk]
          split at h
          · rename_i rhs r1 heq
            rw [ihp g _ _ _ hfg heq]
            exact ihc g _ _ _ _ hfg h
          · rename_i hexcl
            rcases r with e | ⟨t, rest1⟩
            · rw [ihp g _ _ _ hfg h]
            · exact ((hexcl t rest1 h).elim)
        · rename_i hk
          rw [if_neg hk]
          exact h
      · rcases ts with _ | ⟨tok, rest⟩
        · simp only [chainF]
          exact h
        · rename_i hx
          cases tok
          · simp only [chainF]
            exact h
          · exact (hx _ _ rfl).elim
          · simp only [chainF]
            exact h
          · simp only [chainF]
            exact h
          · simp only [chainF]
            exact h

/-- With fuel at least `4 * length + 4` the parser never runs out of fuel:
every level descent or chain step either consumes a token first or moves
one level tighter. -/
theorem parse_nofail : ∀ f,
    (∀ l ts, l ≤ 3 → 4 * ts.length + 4 - l ≤ f → parseF f l ts ≠ none) ∧
    (∀ l acc ts, l ≤ 2 → 4 * ts.length + 3 - l ≤ f → chainF f l acc ts ≠ none) := by
  intro f
  induction f with
  | zero =>
    constructor
    · intro l ts hl hb; omega
    · intro l acc ts hl hb; omega
  | succ f ih =>
    obtain ⟨ihp, ihc⟩ := ih
    constructor
    · intro l ts hl3 hb
      by_cases hl : 3 ≤ l
      · rcases ts with _ | ⟨tok, rest⟩
        · simp [parseF, hl]
        · cases tok with
          | ident n => simp [parseF, hl]
          | op k =>
            cases k with
            | NOT =>
              simp only [parseF, hl, if_true]
              cases hp : parseF f 3 rest with
              | none =>
                refine (ihp 3 rest (by omega) ?_ hp).elim
                simp only [List.length_cons] at hb
                omega
              | some x =>
                rcases x with e | ⟨c, r1⟩ <;> simp [hp]
            | AND => simp [parseF, hl]
            | OR => simp [parseF, hl]
            | XOR => simp [parseF, hl]
          | lparen =>
            simp only [parseF, hl, if_true]
            cases hp : parseF f 0 rest with
            | none =>
              refine (ihp 0 rest (by omega) ?_ hp).elim
              simp only [List.length_cons] at hb
              omega
            | some x =>
              rcases x with e | ⟨c, r2⟩
              · simp [hp]
              · rcases r2 with _ | ⟨tok2, r3⟩
                · simp [hp]
                · cases tok2 <;> simp [hp]
          | rparen => simp [parseF, hl]
          | equals => simp [parseF, hl]
      · simp only [parseF, hl, if_false]
        cases hp : parseF f (l + 1) ts with
        | none =>
          refine (ihp (l + 1) ts (by omega) (by omega) hp).elim
        | some x =>
          rcases x with e | ⟨first, r1⟩
          · simp [hp]
          · have hcons : r1.length < ts.length :=
              (((parse_sound f).1 (l + 1) ts _ hp).2 first r1 rfl).1
            cases hc : chainF f l first r1 with
            | none =>
              refine (ihc l first r1 (by omega) (by omega) hc).elim
            | some y => simp [hp, hc]
    · intro l acc ts hl2 hb
      rcases ts with _ | ⟨tok, rest⟩
      · simp [chainF]
      · cases tok with
        | op k =>
          simp only [chainF]
          by_cases hk : prec k = l
          · rw [if_pos hk]
            cases hp : parseF f (l + 1) rest with
            | none =>
              refine (ihp (l + 1) rest (by omega) ?_ hp).elim
              simp only [List.length_cons] at hb
              omega
            | some x =>
              rcases x with e | ⟨rhs, r1⟩
              · simp [hp]
              · have hcons : r1.length < rest.length :=
                  (((parse_sound f).1 (l + 1) rest _ hp).2 rhs r1 rfl).1
                cases hc : chainF f l (.binary k acc rhs) r1 with
                | none =>
                  refine (ihc l (.binary k acc rhs) r1 hl2 ?_ hc).elim
                  simp only [List.length_cons] at hb
                  omega
                | some y => simp [hp, hc]
          · rw [if_neg hk]
            simp
        | ident n => simp [chainF]
        | lparen => simp [chainF]
        | rparen => simp [chainF]
        | equals => simp [chainF]

theorem nsize_pos : ∀ t, 0 < nsize t := by
  intro t
  cases t <;> simp [nsize]

theorem prec_le3 : ∀ k, prec k ≤ 3 := by
  intro k
  cases k <;> simp [prec]

theorem prec_inj : ∀ k k', prec k = prec k' → k = k' := by
  intro k k'
  cases k <;> cases k' <;> simp [prec]

theorem restOK_mono {l l' : Nat} {rest : List Token} (h : restOK l rest) (hl : l ≤ l') :
    restOK l' rest := by
  rcases h with h | h | ⟨k, hk, hp⟩
  · exact Or.inl h
  · exact Or.inr (Or.inl h)
  · exact Or.inr (Or.inr ⟨k, hk, by omega⟩)

theorem chain_stop {l : Nat} {t : Node} {rest : List Token} {f : Nat} (hf : 1 ≤ f)
    (h : restOK l rest) : chainF f l t rest = some (.ok (t, rest)) := by
  rcases f with _ | f
  · omega
  rcases rest with _ | ⟨tok, rest'⟩
  · simp [chainF]
  · cases tok with
    | op k =>
      rcases h with h | h | ⟨k', hk', hp⟩
      · simp at h
      · simp [List.head?] at h
      · simp only [List.head?, Option.some.injEq, Token.op.injEq] at hk'
        subst hk'
        simp only [chainF]
        rw [if_neg (by omega)]
    | ident n => simp [chainF]
    | lparen => simp [chainF]
    | rparen => simp [chainF]
    | equals => simp [chainF]

theorem parse_lift : ∀ (d l : Nat) (rest X : List Token) (t : Node), l + d ≤ 3 → restOK l rest →
    (∃ f, parseF f (l + d) X = some (.ok (t, rest))) →
    ∃ f, parseF f l X = some (.ok (t, rest)) := by
  intro d
  induction d with
  | zero => intro l rest X t _ _ h; simpa using h
  | succ d ihd =>
    intro l rest X t hl hrest h
    have h1 : ∃ f, parseF f (l + 1 + d) X = some (.ok (t, rest)) := by
      have he : l + 1 + d = l + (d + 1) := by omega
      rw [he]; exact h
    obtain ⟨f1, hf1⟩ := ihd (l + 1) rest X t (by omega) (restOK_mono hrest (by omega)) h1
    obtain ⟨f2, hgf, hf3⟩ : ∃ g, 1 ≤ g ∧ parseF g (l + 1) X = some (.ok (t, rest)) :=
      ⟨f1 + 1, by omega, (parse_mono f1).1 (f1 + 1) _ _ _ (by omega) hf1⟩
    refine ⟨f2 + 1, ?_⟩
    have hnl : ¬ 3 ≤ l := by omega
    simp only [parseF, hnl, if_false]
    rw [hf3]
    exact chain_stop hgf hrest

theorem parse_paren {c : Node} {X rest : List Token}
    (h : ∃ f, parseF f 0 (X ++ .rparen :: rest) = some (.ok (c, .rparen :: rest))) :
    ∃ f, parseF f 3 (.lparen :: (X ++ .rparen :: rest)) = some (.ok (c, rest)) := by
  obtain ⟨f, hf⟩ := h
  refine ⟨f + 1, ?_⟩
  simp only [parseF, show (3 : Nat) ≤ 3 from le_refl 3, if_true]
  rw [hf]

theorem spine_foldl : ∀ (k : OpKind) (t : Node),
    List.foldl (fun x c => Node.binary k x c) (lfirst k t) (lops k t) = t := by
  intro k t
  induction t with
  | leaf n => rfl
  | unary k2 c ihc => rfl
  | binary k2 a b iha ihb =>
    by_cases hk : k2 = k
    · subst hk
      simp only [lfirst, lops, eq_self_iff_true, if_true]
      rw [List.foldl_append, iha]
      rfl
    · simp only [lfirst, lops, if_neg hk]
      rfl

theorem lfirst_ne_same : ∀ (k : OpKind) (t a b : Node), lfirst k t = .binary k a b → False := by
  intro k t
  induction t with
  | leaf n => intro a b h; simp [lfirst] at h
  | unary k2 c ih => intro a b h; simp [lfirst] at h
  | binary k2 x y ihx ihy =>
    intro a b h
    by_cases hk : k2 = k
    · subst hk
      simp only [lfirst, eq_self_iff_true, if_true] at h
      exact ihx a b h
    · simp only [lfirst, if_neg hk] at h
      rw [Node.binary.injEq] at h
      exact hk h.1

theorem topPrec_lfirst_ne {k : OpKind} (hk : prec k ≤ 2) (t : Node) :
    topPrec (lfirst k t) ≠ prec k := by
  intro h
  cases hl : lfirst k t with
  | leaf n => rw [hl] at h; simp [topPrec] at h; omega
  | unary k2 c => rw [hl] at h; simp [topPrec] at h; omega
  | binary k2 a b =>
    rw [hl] at h
    simp only [topPrec] at h
    have hkk : k2 = k := prec_inj _ _ h
    subst hkk
    exact lfirst_ne_same k2 t a b hl

theorem lfirst_good : ∀ (k : OpKind) (t : Node), Good t → Good (lfirst k t) := by
  intro k t
  induction t with
  | leaf n => intro h; exact h
  | unary k2 c ih => intro h; exact h
  | binary k2 a b iha ihb =>
    intro h
    by_cases hk : k2 = k
    · subst hk
      simp only [lfirst, eq_self_iff_true, if_true]
      cases h with
      | binary hp ha hb => exact iha ha
    · simp only [lfirst, if_neg hk]
      exact h

theorem lops_good : ∀ (k : OpKind) (t : Node), Good t → ∀ c ∈ lops k t, Good c := by
  intro k t
  induction t with
  | leaf n => intro h c hc; simp [lops] at hc
  | unary k2 x ih => intro h c hc; simp [lops] at hc
  | binary k2 a b iha ihb =>
    intro h c hc
    by_cases hk : k2 = k
    · subst hk
      simp only [lops, eq_self_iff_true, if_true] at hc
      cases h with
      | binary hp ha hb =>
        rcases List.mem_append.mp hc with hc' | hc'
        · exact iha ha c hc'
        · rw [List.mem_singleton.mp hc']
          exact hb
    · simp only [lops, if_neg hk] at hc
      simp at hc

theorem lfirst_size : ∀ (k : OpKind) (t : Node), nsize (lfirst k t) ≤ nsize t := by
  intro k t
  induction t with
  | leaf n => simp [lfirst]
  | unary k2 c ih => simp [lfirst]
  | binary k2 a b iha ihb =>
    by_cases hk : k2 = k
    · subst hk
      simp only [lfirst, eq_self_iff_true, if_true, nsize]
      omega
    · simp only [lfirst, if_neg hk]
      exact le_refl _

theorem lops_size : ∀ (k : OpKind) (t : Node), ∀ c ∈ lops k t, nsize c < nsize t := by
  intro k t
  induction t with
  | leaf n => intro c hc; simp [lops] at hc
  | unary k2 x ih => intro c hc; simp [lops] at hc
  | binary k2 a b iha ihb =>
    intro c hc
    by_cases hk : k2 = k
    · subst hk
      simp only [lops, eq_self_iff_true, if_true] at hc
      simp only [nsize]
      rcases List.mem_append.mp hc with hc' | hc'
      · have := iha c hc'
        omega
      · rw [List.mem_singleton.mp hc']
        omega
    · simp only [lops, if_neg hk] at hc
      simp at hc

theorem lops_ne_nil : ∀ (k : OpKind) (a b : Node), lops k (.binary k a b) ≠ [] := by
  intro k a b
  simp [lops]

theorem spine_toks : ∀ (k : OpKind) (a b : Node),
    toksN (.binary k a b) =
      wrapToksIf (decide (topPrec (lfirst k (.binary k a b)) < prec k))
          (toksN (lfirst k (.binary k a b))) ++
        (lops k (.binary k a b)).flatMap
          (fun c => Token.op k :: wrapToksIf (decide (topPrec c ≤ prec k)) (toksN c)) := by
  intro k a
  induction a with
  | leaf n =>
    intro b
    simp [toksN, lfirst, lops, topPrec]
  | unary k2 c ih =>
    intro b
    simp [toksN, lfirst, lops, topPrec]
  | binary k2 x y ihx ihy =>
    intro b
    by_cases hk : k2 = k
    · subst hk
      have hlf : lfirst k2 (.binary k2 (.binary k2 x y) b) = lfirst k2 (.binary k2 x y) := by
        simp only [lfirst, eq_self_iff_true, if_true]
      have hlo : lops k2 (.binary k2 (.binary k2 x y) b) = lops k2 (.binary k2 x y) ++ [b] := by
        simp only [lops, eq_self_iff_true, if_true]
      have hlhs : toksN (.binary k2 (.binary k2 x y) b) =
          toksN (.binary k2 x y) ++ Token.op k2 ::
            wrapToksIf (decide (topPrec b ≤ prec k2)) (toksN b) := by
        have hfalse : (decide (topPrec (Node.binary k2 x y) < prec k2)) = false := by
          simp [topPrec]
        show wrapToksIf (decide (topPrec (Node.binary k2 x y) < prec k2))
              (toksN (Node.binary k2 x y)) ++
            Token.op k2 :: wrapToksIf (decide (topPrec b ≤ prec k2)) (toksN b) = _
        rw [hfalse]
        rfl
      rw [hlf, hlo, List.flatMap_append, hlhs, ihx y]
      simp [List.flatMap_cons, List.flatMap_nil, List.append_assoc]
    · have h4 : lfirst k (.binary k (.binary k2 x y) b) = .binary k2 x y := by
        simp only [lfirst, eq_self_iff_true, if_true, if_neg hk]
      have h5 : lops k (.binary k (.binary k2 x y) b) = [b] := by
        simp only [lops, eq_self_iff_true, if_true, if_neg hk, List.nil_append]
      rw [h4, h5]
      simp only [toksN, topPrec, List.flatMap_cons, List.flatMap_nil, List.append_nil]

theorem parse_lift' (l m : Nat) {rest X : List Token} {t : Node} (hlm : l ≤ m) (hm3 : m ≤ 3)
    (hr : restOK l rest) (h : ∃ f, parseF f m X = some (.ok (t, rest))) :
    ∃ f, parseF f l X = some (.ok (t, rest)) := by
  refine parse_lift (m - l) l rest X t (by omega) hr ?_
  rw [show l + (m - l) = m by omega]
  exact h

/-- Parsing one (possibly parenthesized) operand of a binary chain at the
level one tighter than the chain's. -/
theorem operand_rt (n : Nat)
    (ih : ∀ t, nsize t ≤ n → Good t → ∀ l, l ≤ 3 → l ≤ topPrec t → ∀ rest, restOK l rest →
      ∃ f, parseF f l (toksN t ++ rest) = some (.ok (t, rest)))
    {k : OpKind} (hk2 : prec k ≤ 2) (w : Bool) {c : Node} (hsz : nsize c ≤ n) (hg : Good c)
    {tail : List Token} (htail : restOK (prec k + 1) tail)
    (hw' : w = false → prec k + 1 ≤ topPrec c) :
    ∃ f, parseF f (prec k + 1) (wrapToksIf w (toksN c) ++ tail) = some (.ok (c, tail)) := by
  cases w with
  | true =>
    have h0 := ih c hsz hg 0 (by omega) (Nat.zero_le _) (.rparen :: tail) (Or.inr (Or.inl rfl))
    have h1 := parse_paren h0
    refine parse_lift' (prec k + 1) 3 (by omega) (by omega) htail ?_
    simp only [wrapToksIf, List.cons_append, List.append_assoc, List.singleton_append]
    exact h1
  | false =>
    have htp : prec k + 1 ≤ topPrec c := hw' rfl
    have h0 := ih c hsz hg (prec k + 1) (by omega) htp tail htail
    simpa [wrapToksIf] using h0

/-- Parsing the whole left-associative chain of `k`-operators: the chain
loop consumes each operator and operand in turn and folds them to the
left. -/
theorem chain_rt (n : Nat)
    (ih : ∀ t, nsize t ≤ n → Good t → ∀ l, l ≤ 3 → l ≤ topPrec t → ∀ rest, restOK l rest →
      ∃ f, parseF f l (toksN t ++ rest) = some (.ok (t, rest)))
    {k : OpKind} (hk2 : prec k ≤ 2) :
    ∀ ops : List Node, (∀ c ∈ ops, nsize c ≤ n ∧ Good c) →
    ∀ (acc : Node) (rest : List Token), restOK (prec k) rest →
    ∃ f, chainF f (prec k) acc
        (ops.flatMap (fun c => Token.op k :: wrapToksIf (decide (topPrec c ≤ prec k)) (toksN c))
          ++ rest) =
      some (.ok (List.foldl (fun x c => Node.binary k x c) acc ops, rest)) := by
  intro ops
  induction ops with
  | nil =>
    intro _ acc rest hrest
    exact ⟨1, by simpa using chain_stop (le_refl 1) hrest⟩
  | cons c ops' ihops =>
    intro hall acc rest hrest
    have htail : restOK (prec k + 1)
        (ops'.flatMap (fun c => Token.op k :: wrapToksIf (decide (topPrec c ≤ prec k)) (toksN c))
          ++ rest) := by
      cases ops' with
      | nil => simpa using restOK_mono hrest (by omega)
      | cons d ops'' =>
        refine Or.inr (Or.inr ⟨k, ?_, by omega⟩)
        simp [List.flatMap_cons]
    obtain ⟨f1, hf1⟩ := operand_rt n ih hk2 (decide (topPrec c ≤ prec k))
        (hall c (by simp)).1 (hall c (by simp)).2 htail
        (fun h => by have := of_decide_eq_false h; omega)
    obtain ⟨f2, hf2⟩ := ihops (fun d hd => hall d (by simp [hd])) (.binary k acc c) rest hrest
    refine ⟨f1 + f2 + 1, ?_⟩
    simp only [List.flatMap_cons, List.cons_append, List.append_assoc, List.foldl_cons]
    simp only [chainF, eq_self_iff_true, if_true]
    rw [(parse_mono f1).1 (f1 + f2) _ _ _ (by omega) hf1]
    exact (parse_mono f2).2 (f1 + f2) _ _ _ _ (by omega) hf2

/-- Round trip: the canonical token form of a well-formed tree parses back
to exactly that tree, at any level at most the tree's top binding level,
before any chain-stopping remainder. -/
theorem parse_roundtrip : ∀ n t, nsize t ≤ n → Good t →
    ∀ l, l ≤ 3 → l ≤ topPrec t → ∀ rest, restOK l rest →
    ∃ f, parseF f l (toksN t ++ rest) = some (.ok (t, rest)) := by
  intro n
  induction n with
  | zero =>
    intro t h
    have := nsize_pos t
    omega
  | succ n ih =>
    intro t hsz hg l hl3 hltop rest hrest
    cases t with
    | leaf nm =>
      refine parse_lift' l 3 hl3 (le_refl 3) hrest ⟨1, ?_⟩
      simp [toksN, parseF]
    | unary k c =>
      have hinv : k = .NOT ∧ Good c := by
        cases hg with
        | unary hgc => exact ⟨rfl, hgc⟩
      obtain ⟨rfl, hgc⟩ := hinv
      have hszc : nsize c ≤ n := by
        simp only [nsize] at hsz
        omega
      refine parse_lift' l 3 hl3 (le_refl 3) hrest ?_
      by_cases hcw : topPrec c < 3
      · obtain ⟨f0, h0⟩ := ih c hszc hgc 0 (by omega) (Nat.zero_le _) (.rparen :: rest)
          (Or.inr (Or.inl rfl))
        obtain ⟨f1, h1⟩ := parse_paren ⟨f0, h0⟩
        refine ⟨f1 + 1, ?_⟩
        simp only [toksN, decide_eq_true hcw, wrapToksIf, List.cons_append, List.append_assoc,
          List.singleton_append, List.nil_append]
        simp only [parseF, show (3 : Nat) ≤ 3 from le_refl 3, if_true]
        rw [h1]
      · obtain ⟨f0, h0⟩ := ih c hszc hgc 3 (le_refl 3) (by omega) rest
          (restOK_mono hrest hl3)
        refine ⟨f0 + 1, ?_⟩
        simp only [toksN, decide_eq_false hcw, wrapToksIf, List.cons_append]
        simp only [parseF, show (3 : Nat) ≤ 3 from le_refl 3, if_true]
        rw [h0]
    | binary k a b =>
      have hinv : prec k ≤ 2 ∧ Good a ∧ Good b := by
        cases hg with
        | binary hkp hga hgb => exact ⟨hkp, hga, hgb⟩
      obtain ⟨hkp, hga, hgb⟩ := hinv
      have hj : l ≤ prec k := by simpa [topPrec] using hltop
      refine parse_lift' l (prec k) hj (by omega) hrest ?_
      -- first operand
      have hlf_eq : lfirst k (Node.binary k a b) = lfirst k a := by
        simp only [lfirst, eq_self_iff_true, if_true]
      have husz : nsize (lfirst k (Node.binary k a b)) ≤ n := by
        rw [hlf_eq]
        have h1 := lfirst_size k a
        simp only [nsize] at hsz
        have h2 := nsize_pos b
        omega
      have hgu : Good (lfirst k (Node.binary k a b)) :=
        lfirst_good k _ (Good.binary hkp hga hgb)
      obtain ⟨c0, ops0, hops⟩ := List.exists_cons_of_ne_nil (lops_ne_nil k a b)
      have htail : restOK (prec k + 1)
          ((lops k (Node.binary k a b)).flatMap
            (fun c => Token.op k :: wrapToksIf (decide (topPrec c ≤ prec k)) (toksN c))
            ++ rest) := by
        rw [hops]
        refine Or.inr (Or.inr ⟨k, ?_, by omega⟩)
        simp [List.flatMap_cons]
      obtain ⟨fA, hA⟩ := operand_rt n ih hkp
        (decide (topPrec (lfirst k (Node.binary k a b)) < prec k)) husz hgu htail
        (fun h => by
          have h1 := of_decide_eq_false h
          have h2 := topPrec_lfirst_ne hkp (Node.binary k a b)
          omega)
      obtain ⟨fB, hB⟩ := chain_rt n ih hkp (lops k (Node.binary k a b))
        (fun c hc => ⟨by
            have h1 := lops_size k (Node.binary k a b) c hc
            omega,
          lops_good k _ (Good.binary hkp hga hgb) c hc⟩)
        (lfirst k (Node.binary k a b)) rest (restOK_mono hrest hj)
      rw [spine_foldl k (Node.binary k a b)] at hB
      refine ⟨fA + fB + 1, ?_⟩
      rw [spine_toks k a b]
      have hnl : ¬ 3 ≤ prec k := by omega
      simp only [parseF, hnl, if_false, List.append_assoc]
      rw [(parse_mono fA).1 (fA + fB) _ _ _ (by omega) hA]
      exact (parse_mono fB).2 (fA + fB) _ _ _ _ (by omega) hB

theorem consTok_appTok (t : Token) (b : List Token) (r : Except EqError (List Token)) :
    consTok t (appTok b r) = appTok (t :: b) r := by
  cases r <;> simp [consTok, appTok]

theorem tokenize_sym_ok {c : Char} {t : Token} (hw : c.isWhitespace = false)
    (ha : c.isAlpha = false) (hs : symTok c = .ok t) (cs : List Char) :
    tokenizeChars (c :: cs) = consTok t (tokenizeChars cs) := by
  rw [tokenize_sym_step hw ha, hs]

theorem isIdentStr_all {n : List Char} (h : isIdentStr n = true) :
    ∀ c ∈ n, isIdentChar c = true := by
  rcases n with _ | ⟨c, cs⟩
  · intro c hc; simp at hc
  · simp only [isIdentStr, Bool.and_eq_true, List.all_eq_true] at h
    intro x hx
    rcases List.mem_cons.mp hx with rfl | hx'
    · exact identChar_of_alpha h.1
    · exact h.2 x hx'

/-- Tokenizing a wrapped (or bare) printed operand, given the operand's own
tokenization lemma. -/
theorem tokenize_print_wrap (u : Node)
    (ihu : ∀ rest : List Char, headNotIdent rest →
      tokenizeChars (printNode u ++ rest) = appTok (toksN u) (tokenizeChars rest))
    (w : Bool) (rest : List Char) (hb : headNotIdent rest) :
    tokenizeChars (wrapIf w (printNode u) ++ rest) =
      appTok (wrapToksIf w (toksN u)) (tokenizeChars rest) := by
  cases w with
  | true =>
    have e1 : wrapIf true (printNode u) ++ rest = '(' :: (printNode u ++ (')' :: rest)) := by
      simp [wrapIf, List.append_assoc]
    rw [e1]
    rw [tokenize_sym_ok (by decide) (by decide) (show symTok '(' = .ok .lparen from rfl)]
    rw [ihu (')' :: rest) (Or.inr ⟨')', rest, rfl, by decide⟩)]
    rw [tokenize_sym_ok (by decide) (by decide) (show symTok ')' = .ok .rparen from rfl)]
    rw [show wrapToksIf true (toksN u) = .lparen :: (toksN u ++ [.rparen]) from rfl]
    cases tokenizeChars rest <;> simp [consTok, appTok]
  | false =>
    simpa [wrapIf, wrapToksIf] using ihu rest hb

theorem sym_facts : ∀ k, prec k ≤ 2 →
    symTok (sym k) = .ok (.op k) ∧ (sym k).isWhitespace = false ∧
      (sym k).isAlpha = false ∧ isIdentChar (sym k) = false := by
  intro k hk
  cases k with
  | NOT => simp [prec] at hk
  | AND => exact ⟨rfl, by decide, by decide, by decide⟩
  | OR => exact ⟨rfl, by decide, by decide, by decide⟩
  | XOR => exact ⟨rfl, by decide, by decide, by decide⟩

/-- Tokenizing the canonical printed form of a well-formed tree yields
exactly its canonical token sequence. -/
theorem tokenize_print : ∀ t, Good t →
    ∀ rest : List Char, headNotIdent rest →
    tokenizeChars (printNode t ++ rest) = appTok (toksN t) (tokenizeChars rest) := by
  intro t
  induction t with
  | leaf n =>
    intro hg rest hb
    have hinv : isIdentStr n = true ∧ resolveOperator n = none := by
      cases hg with
      | leaf h1 h2 => exact ⟨h1, h2⟩
    rw [show printNode (.leaf n) = n from rfl, tokenize_word_step hinv.1 hb]
    rw [show classifyWord n = .ident n from by simp [classifyWord, hinv.2]]
    rw [show toksN (.leaf n) = [.ident n] from rfl]
    cases tokenizeChars rest <;> rfl
  | unary k c ihc =>
    intro hg rest hb
    have hinv : k = .NOT ∧ Good c := by
      cases hg with
      | unary hgc => exact ⟨rfl, hgc⟩
    obtain ⟨rfl, hgc⟩ := hinv
    have e1 : printNode (.unary .NOT c) ++ rest =
        '~' :: (wrapIf (decide (topPrec c < 3)) (printNode c) ++ rest) := by
      simp [printNode]
    rw [e1]
    rw [tokenize_sym_ok (by decide) (by decide) (show symTok '~' = .ok (.op .NOT) from rfl)]
    rw [tokenize_print_wrap c (ihc hgc) _ rest hb]
    rw [show toksN (.unary .NOT c) =
      .op .NOT :: wrapToksIf (decide (topPrec c < 3)) (toksN c) from rfl]
    exact consTok_appTok _ _ _
  | binary k a b iha ihb =>
    intro hg rest hb
    have hinv : prec k ≤ 2 ∧ Good a ∧ Good b := by
      cases hg with
      | binary hkp hga hgb => exact ⟨hkp, hga, hgb⟩
    obtain ⟨hkp, hga, hgb⟩ := hinv
    obtain ⟨hsymtok, hsymw, hsyma, hsymi⟩ := sym_facts k hkp
    have e1 : printNode (.binary k a b) ++ rest =
        wrapIf (decide (topPrec a < prec k)) (printNode a) ++
          (sym k :: (wrapIf (decide (topPrec b ≤ prec k)) (printNode b) ++ rest)) := by
      simp [printNode, List.append_assoc]
    rw [e1]
    rw [tokenize_print_wrap a (iha hga) _ _
      (Or.inr ⟨sym k, _, rfl, hsymi⟩)]
    rw [tokenize_sym_ok hsymw hsyma hsymtok]
    rw [tokenize_print_wrap b (ihb hgb) _ rest hb]
    rw [show toksN (.binary k a b) =
      wrapToksIf (decide (topPrec a < prec k)) (toksN a) ++
        .op k :: wrapToksIf (decide (topPrec b ≤ prec k)) (toksN b) from rfl]
    cases tokenizeChars rest <;> simp [consTok, appTok]

theorem mem_wrapIf {b : Bool} {s : List Char} {c : Char} (h : c ∈ wrapIf b s) :
    c ∈ s ∨ c = '(' ∨ c = ')' := by
  cases b with
  | false => exact Or.inl h
  | true =>
    simp only [wrapIf, List.mem_cons, List.mem_append] at h
    rcases h with rfl | h | rfl | h
    · exact Or.inr (Or.inl rfl)
    · exact Or.inl h
    · exact Or.inr (Or.inr rfl)
    · simp at h

theorem printNode_chars : ∀ t, Good t → ∀ c ∈ printNode t,
    isIdentChar c = true ∨ c = '~' ∨ c = '&' ∨ c = '^' ∨ c = '|' ∨ c = '(' ∨ c = ')' := by
  intro t
  induction t with
  | leaf n =>
    intro hg c hc
    have hinv : isIdentStr n = true := by
      cases hg with
      | leaf h1 h2 => exact h1
    exact Or.inl (isIdentStr_all hinv c hc)
  | unary k x ihx =>
    intro hg c hc
    have hinv : k = .NOT ∧ Good x := by
      cases hg with
      | unary hgc => exact ⟨rfl, hgc⟩
    obtain ⟨rfl, hgx⟩ := hinv
    simp only [printNode, List.mem_cons] at hc
    rcases hc with rfl | hc
    · exact Or.inr (Or.inl rfl)
    · rcases mem_wrapIf hc with h | rfl | rfl
      · exact ihx hgx c h
      · exact Or.inr (Or.inr (Or.inr (Or.inr (Or.inr (Or.inl rfl)))))
      · exact Or.inr (Or.inr (Or.inr (Or.inr (Or.inr (Or.inr rfl)))))
  | binary k a b iha ihb =>
    intro hg c hc
    have hinv : prec k ≤ 2 ∧ Good a ∧ Good b := by
      cases hg with
      | binary hkp hga hgb => exact ⟨hkp, hga, hgb⟩
    obtain ⟨hkp, hga, hgb⟩ := hinv
    simp only [printNode, List.mem_append, List.mem_cons] at hc
    rcases hc with hc | rfl | hc
    · rcases mem_wrapIf hc with h | rfl | rfl
      · exact iha hga c h
      · exact Or.inr (Or.inr (Or.inr (Or.inr (Or.inr (Or.inl rfl)))))
      · exact Or.inr (Or.inr (Or.inr (Or.inr (Or.inr (Or.inr rfl)))))
    · cases k with
      | NOT => simp [prec] at hkp
      | AND => exact Or.inr (Or.inr (Or.inl rfl))
      | XOR => exact Or.inr (Or.inr (Or.inr (Or.inl rfl)))
      | OR => exact Or.inr (Or.inr (Or.inr (Or.inr (Or.inl rfl))))
    · rcases mem_wrapIf hc with h | rfl | rfl
      · exact ihb hgb c h
      · exact Or.inr (Or.inr (Or.inr (Or.inr (Or.inr (Or.inl rfl)))))
      · exact Or.inr (Or.inr (Or.inr (Or.inr (Or.inr (Or.inr rfl)))))

theorem printNode_no_ws {t : Node} (hg : Good t) : ∀ c ∈ printNode t, c.isWhitespace = false := by
  intro c hc
  rcases printNode_chars t hg c hc with h | rfl | rfl | rfl | rfl | rfl | rfl
  · exact identChar_not_ws h
  all_goals decide

theorem printNode_no_eq {t : Node} (hg : Good t) : '=' ∉ printNode t := by
  intro hc
  rcases printNode_chars t hg '=' hc with h | h | h | h | h | h | h
  · exact absurd h (by decide)
  all_goals simp at h

theorem exprStr_wrapIf {b : Bool} {s : List Char} (h : ExprStr s) : ExprStr (wrapIf b s) := by
  cases b with
  | false => exact h
  | true => exact ExprStr.paren h

theorem printNode_grammar : ∀ t, Good t → ExprStr (printNode t) := by
  intro t
  induction t with
  | leaf n =>
    intro hg
    have hinv : isIdentStr n = true := by
      cases hg with
      | leaf h1 h2 => exact h1
    exact ExprStr.ident hinv
  | unary k x ihx =>
    intro hg
    have hinv : k = .NOT ∧ Good x := by
      cases hg with
      | unary hgc => exact ⟨rfl, hgc⟩
    obtain ⟨rfl, hgx⟩ := hinv
    exact ExprStr.not (exprStr_wrapIf (ihx hgx))
  | binary k a b iha ihb =>
    intro hg
    have hinv : prec k ≤ 2 ∧ Good a ∧ Good b := by
      cases hg with
      | binary hkp hga hgb => exact ⟨hkp, hga, hgb⟩
    obtain ⟨hkp, hga, hgb⟩ := hinv
    refine ExprStr.bin (exprStr_wrapIf (iha hga)) ?_ (exprStr_wrapIf (ihb hgb))
    cases k with
    | NOT => simp [prec] at hkp
    | AND => exact Or.inl rfl
    | XOR => exact Or.inr (Or.inl rfl)
    | OR => exact Or.inr (Or.inr rfl)

theorem parseToks_good {ts : List Token} {t : Node} (hts : ∀ tok ∈ ts, GoodTok tok)
    (h : parseToks ts = .ok t) : Good t := by
  unfold parseToks at h
  split at h
  · rename_i t' heq
    cases h
    exact ((((parse_sound _).1 0 ts _ heq).2 t [] rfl).2 hts).1
  · simp at h
  · simp at h
  · simp at h

theorem parseToks_err {ts : List Token} {e : EqError} (h : parseToks ts = .error e) :
    e = .parseError := by
  unfold parseToks at h
  split at h
  · simp at h
  · cases h; rfl
  · rename_i e' heq
    cases h
    exact ((parse_sound _).1 0 ts _ heq).1 _ rfl
  · cases h; rfl

theorem parseToks_toksN {t : Node} (hg : Good t) : parseToks (toksN t) = .ok t := by
  obtain ⟨f, hf⟩ := parse_roundtrip (nsize t) t (le_refl _) hg 0 (by omega) (Nat.zero_le _)
    [] (Or.inl rfl)
  rw [List.append_nil] at hf
  have hF : parseF (4 * (toksN t).length + 4) 0 (toksN t) = some (.ok (t, [])) := by
    by_cases hle : f ≤ 4 * (toksN t).length + 4
    · exact (parse_mono f).1 _ _ _ _ hle hf
    · cases hx : parseF (4 * (toksN t).length + 4) 0 (toksN t) with
      | none => exact absurd hx ((parse_nofail _).1 0 (toksN t) (by omega) (by omega))
      | some x =>
        have hup := (parse_mono _).1 f _ _ _ (by omega) hx
        rw [hf] at hup
        cases hup
        rfl
  unfold parseToks
  rw [hF]

theorem transform_ok_inv {raw : String} {s : String}
    (h : transform_eq_to_generic_schema raw = .ok s) :
    ∃ nm ts t, raw.data.count '=' = 1 ∧
      tokenizeChars (raw.data.takeWhile (fun c => c != '=')) = .ok [Token.ident nm] ∧
      tokenizeChars ((raw.data.dropWhile (fun c => c != '=')).tail) = .ok ts ∧
      parseToks ts = .ok t ∧ s = String.mk (nm ++ '=' :: printNode t) := by
  simp only [transform_eq_to_generic_schema] at h
  split at h
  · rename_i hcount
    split at h
    · rename_i nm heq1
      split at h
      · rename_i ts heq2
        split at h
        · rename_i t heq3
          cases h
          exact ⟨nm, ts, t, hcount, heq1, heq2, heq3, rfl⟩
        · simp at h
      · simp at h
    · simp at h
  · simp at h

theorem transform_canonical {nm : List Char} {t : Node} (h1 : isIdentStr nm = true)
    (h2 : resolveOperator nm = none) (hg : Good t) :
    transform_eq_to_generic_schema (String.mk (nm ++ '=' :: printNode t)) =
      .ok (String.mk (nm ++ '=' :: printNode t)) := by
  have hdata : (String.mk (nm ++ '=' :: printNode t)).data = nm ++ '=' :: printNode t := rfl
  have hnoeq_nm : ∀ c ∈ nm, (c != '=') = true := by
    intro c hc
    have := identChar_ne_eq (isIdentStr_all h1 c hc)
    simpa using this
  have hcount : (nm ++ '=' :: printNode t).count '=' = 1 := by
    rw [List.count_append]
    have hc1 : nm.count '=' = 0 := by
      rw [List.count_eq_zero]
      intro hmem
      have := hnoeq_nm '=' hmem
      simp at this
    have hc2 : (('=' :: printNode t).count '=') = (printNode t).count '=' + 1 :=
      List.count_cons_self _ _
    have hc3 : (printNode t).count '=' = 0 := by
      rw [List.count_eq_zero]
      exact printNode_no_eq hg
    omega
  have hsplit := takeWhile_app_eq (p := fun c => c != '=') hnoeq_nm
    (Or.inr ⟨'=', printNode t, rfl, by decide⟩)
  have htok_nm : tokenizeChars nm = .ok [Token.ident nm] := by
    have hstep := tokenize_word_step h1 (Or.inl rfl)
    rw [List.append_nil] at hstep
    rw [hstep, tokenize_nil]
    simp [classifyWord, h2, consTok]
  have htok_rhs : tokenizeChars (printNode t) = .ok (toksN t) := by
    have hstep := tokenize_print t hg [] (Or.inl rfl)
    rw [List.append_nil] at hstep
    rw [hstep, tokenize_nil]
    simp [appTok]
  simp only [transform_eq_to_generic_schema, hdata]
  rw [if_pos hcount]
  rw [hsplit.1, hsplit.2]
  simp only [List.tail_cons]
  simp only [htok_nm, htok_rhs, parseToks_toksN hg]

theorem transform_eval {raw : String} {nm : List Char} {ts : List Token}
    (hcount : raw.data.count '=' = 1)
    (h1 : tokenizeChars (raw.data.takeWhile (fun c => c != '=')) = .ok [Token.ident nm])
    (h2 : tokenizeChars ((raw.data.dropWhile (fun c => c != '=')).tail) = .ok ts) :
    transform_eq_to_generic_schema raw =
      match parseToks ts with
      | .ok t => .ok (String.mk (nm ++ '=' :: printNode t))
      | .error e => .error e := by
  simp only [transform_eq_to_generic_schema, hcount, eq_self_iff_true, if_true, h1, h2]

theorem transform_eval_rhs_lex {raw : String} {nm : List Char} {e : EqError}
    (hcount : raw.data.count '=' = 1)
    (h1 : tokenizeChars (raw.data.takeWhile (fun c => c != '=')) = .ok [Token.ident nm])
    (h2 : tokenizeChars ((raw.data.dropWhile (fun c => c != '=')).tail) = .error e) :
    transform_eq_to_generic_schema raw = .error e := by
  simp only [transform_eq_to_generic_schema, hcount, eq_self_iff_true, if_true, h1, h2]

theorem transform_eval_badcount {raw : String} (hcount : raw.data.count '=' ≠ 1) :
    transform_eq_to_generic_schema raw = .error .formatError := by
  simp only [transform_eq_to_generic_schema, if_neg hcount]

theorem transform_eval_badlhs {raw : String} (hcount : raw.data.count '=' = 1)
    (h1 : ∀ nm, tokenizeChars (raw.data.takeWhile (fun c => c != '=')) ≠ .ok [Token.ident nm]) :
    transform_eq_to_generic_schema raw = .error .formatError := by
  simp only [transform_eq_to_generic_schema, hcount, eq_self_iff_true, if_true]

theorem transform_formatError_iff : ∀ raw : String,
    transform_eq_to_generic_schema raw = .error .formatError ↔ EquationFormatViolation raw := by
  intro raw
  unfold EquationFormatViolation
  constructor
  · intro h
    by_cases hcount : raw.data.count '=' = 1
    · refine Or.inr ?_
      rintro ⟨nm, hnm⟩
      cases h2 : tokenizeChars ((raw.data.dropWhile (fun c => c != '=')).tail) with
      | ok ts =>
        rw [transform_eval hcount hnm h2] at h
        cases h3 : parseToks ts with
        | ok t => rw [h3] at h; simp at h
        | error e =>
          rw [h3] at h
          cases parseToks_err h3
          simp at h
      | error e =>
        rw [transform_eval_rhs_lex hcount hnm h2] at h
        cases tokenize_err h2
        simp at h
    · exact Or.inl hcount
  · intro h
    rcases h with h | h
    · exact transform_eval_badcount h
    · by_cases hcount : raw.data.count '=' = 1
      · exact transform_eval_badlhs hcount (fun nm hnm => h ⟨nm, hnm⟩)
      · exact transform_eval_badcount hcount

/-- C1: each of the six spellings of a negated single variable — "F = NOT A",
"F = not A", "F = ~A", "F = ~ A", "F = !A", "F = ! A" — canonicalizes to
exactly "F=~A". -/
theorem c1_not_alias_outputs :
    transform_eq_to_generic_schema "F = NOT A" = .ok "F=~A" ∧
    transform_eq_to_generic_schema "F = not A" = .ok "F=~A" ∧
    transform_eq_to_generic_schema "F = ~A" = .ok "F=~A" ∧
    transform_eq_to_generic_schema "F = ~ A" = .ok "F=~A" ∧
    transform_eq_to_generic_schema "F = !A" = .ok "F=~A" ∧
    transform_eq_to_generic_schema "F = ! A" = .ok "F=~A" :=
  ⟨rfl, rfl, rfl, rfl, rfl, rfl⟩

/-- C3: canonical output is a fixed point of the facade — whenever
`transform_eq_to_generic_schema raw` succeeds with output `s`, running the
facade again on `s` returns `s` itself; in particular "F=~A" is fixed. -/
theorem c3_idempotent :
    (∀ raw s : String, transform_eq_to_generic_schema raw = .ok s →
      transform_eq_to_generic_schema s = .ok s) ∧
    transform_eq_to_generic_schema "F=~A" = .ok "F=~A" := by
  refine ⟨?_, rfl⟩
  intro raw s h
  obtain ⟨nm, ts, t, hcount, hlhs, hrhs, hparse, rfl⟩ := transform_ok_inv h
  have hnm : GoodTok (.ident nm) := tokenize_good hlhs _ (by simp)
  have ht : Good t := parseToks_good (tokenize_good hrhs) hparse
  exact transform_canonical hnm.1 hnm.2 ht

/-- C3 witness: the fixed-point property applied at the concrete successful
input "F = NOT A" with output "F=~A". -/
theorem c3_idempotent_witness :
    transform_eq_to_generic_schema "F = NOT A" = .ok "F=~A" ∧
    transform_eq_to_generic_schema "F=~A" = .ok "F=~A" :=
  ⟨rfl, c3_idempotent.1 "F = NOT A" "F=~A" rfl⟩

/-- C5: every successful output of the facade contains no whitespace and has
the shape identifier "=" expression, with the expression generated by the
canonical grammar (identifiers, prefix ~, parentheses, binary & ^ |). -/
theorem c5_output_grammar : ∀ raw s : String, transform_eq_to_generic_schema raw = .ok s →
    (∀ c ∈ s.data, c.isWhitespace = false) ∧
    ∃ nm e, s.data = nm ++ '=' :: e ∧ isIdentStr nm = true ∧ ExprStr e := by
  intro raw s h
  obtain ⟨nm, ts, t, hcount, hlhs, hrhs, hparse, rfl⟩ := transform_ok_inv h
  have hnm : GoodTok (.ident nm) := tokenize_good hlhs _ (by simp)
  have ht : Good t := parseToks_good (tokenize_good hrhs) hparse
  constructor
  · intro c hc
    simp only [List.mem_append, List.mem_cons] at hc
    rcases hc with hc | rfl | hc
    · exact identChar_not_ws (isIdentStr_all hnm.1 c hc)
    · decide
    · exact printNode_no_ws ht c hc
  · exact ⟨nm, printNode t, rfl, hnm.1, printNode_grammar t ht⟩

/-- C5 witness: the grammar property applied at the concrete successful
input "F = NOT A" with output "F=~A". -/
theorem c5_output_grammar_witness :
    transform_eq_to_generic_schema "F = NOT A" = .ok "F=~A" ∧
    ((∀ c ∈ ("F=~A" : String).data, c.isWhitespace = false) ∧
      ∃ nm e, ("F=~A" : String).data = nm ++ '=' :: e ∧ isIdentStr nm = true ∧ ExprStr e) :=
  ⟨rfl, c5_output_grammar "F = NOT A" "F=~A" rfl⟩

/-- C6: "F = A AND (B OR C)" canonicalizes to "F=A&(B|C)" — the
parenthesization around the lower-precedence OR sub-expression is kept and
no other parentheses appear. -/
theorem c6_and_parens :
    transform_eq_to_generic_schema "F = A AND (B OR C)" = .ok "F=A&(B|C)" := rfl

/-- C7: the malformed input "F = AND A" (a binary operator where an operand
is expected) fails with a `ParseError` and produces no canonical string. -/
theorem c7_leading_and_parse_error :
    transform_eq_to_generic_schema "F = AND A" = .error .parseError := rfl

/-- C8: the facade fails with `EquationFormatError` exactly when `=` is
missing or duplicated, or the left-hand side is not a single valid
identifier; in every other case it does not produce that error. -/
theorem c8_formatError_characterization : ∀ raw : String,
    transform_eq_to_generic_schema raw = .error .formatError ↔ EquationFormatViolation raw :=
  transform_formatError_iff

/-- C4 counterexample: replacing the NOT spelling "~" by the recognized NOT
spelling "NOT" in the valid input "F=~A" (giving "F=NOTA") changes the
canonical output, because "NOTA" lexes as one identifier. -/
theorem c4_substitution_cex :
    ("F=NOTA" : String).data = ("F=" : String).data ++ ("NOT" : String).data ++ ("A" : String).data ∧
    ("F=~A" : String).data = ("F=" : String).data ++ ("~" : String).data ++ ("A" : String).data ∧
    ("NOT" : String).data ∈ spellings .NOT ∧
    ("~" : String).data ∈ spellings .NOT ∧
    transform_eq_to_generic_schema "F=NOTA" = .ok "F=NOTA" ∧
    transform_eq_to_generic_schema "F=~A" = .ok "F=~A" ∧
    transform_eq_to_generic_schema "F=NOTA" ≠ transform_eq_to_generic_schema "F=~A" := by
  refine ⟨rfl, rfl, by decide, by decide, rfl, rfl, ?_⟩
  intro h
  rw [show transform_eq_to_generic_schema "F=NOTA" = .ok "F=NOTA" from rfl,
    show transform_eq_to_generic_schema "F=~A" = .ok "F=~A" from rfl] at h
  simp only [Except.ok.injEq] at h
  exact absurd h (by decide)

/-- C9: `ttasks.main` returns exit code 0 exactly when the selected task
completes without raising, returns 1 exactly when the task raises one of
`AppVeyorApiError`, `SubprocessFailureError` or `TestFailureError`, and
re-raises any other exception after printing a notice instead of returning
an exit code. -/
theorem c9_main_exit_codes :
    (∀ taskRun : Except PyExc Unit,
      (ttasksMain (.ok ()) taskRun = .returns 0 ↔ taskRun = .ok ()) ∧
      (ttasksMain (.ok ()) taskRun = .returns 1 ↔
        (taskRun = .error .appVeyorApiError ∨ taskRun = .error .subprocessFailureError ∨
          taskRun = .error .testFailureError))) ∧
    (∀ tag : Nat, ttasksMain (.ok ()) (.error (.otherException tag)) =
      .raises (.otherException tag) true) := by
  constructor
  · intro taskRun
    rcases taskRun with e | u
    · cases e <;> simp [ttasksMain, tryExceptMain, Bind.bind, Except.bind, pure, Except.pure]
    · cases u
      simp [ttasksMain, tryExceptMain, Bind.bind, Except.bind, pure, Except.pure]
  · intro tag
    simp [ttasksMain, tryExceptMain, Bind.bind, Except.bind, pure, Except.pure]

/-- C10: the `_cwd` context manager restores the working directory saved on
entry whenever the managed block completes normally; if the block raises,
the directory is left as the block set it (no try/finally). -/
theorem c10_cwd_restore :
    ∀ (newCwd cwd0 : String) (body : String → Except PyExc Unit × String),
      (∀ c, body newCwd = (.ok (), c) → _cwd newCwd body cwd0 = (.ok (), cwd0)) ∧
      (∀ e c, body newCwd = (.error e, c) → _cwd newCwd body cwd0 = (.error e, c)) := by
  intro newCwd cwd0 body
  constructor
  · intro c h
    simp [_cwd, h]
  · intro e c h
    simp [_cwd, h]

/-- C10 witness: the restoration property at a concrete body that finishes
normally, and the non-restoration at a concrete body that raises. -/
theorem c10_cwd_restore_witness :
    _cwd "/repo/docs" (fun s => (.ok (), s)) "/repo" = (.ok (), "/repo") ∧
    _cwd "/repo/docs" (fun s => (.error .subprocessFailureError, s)) "/repo" =
      (.error .subprocessFailureError, "/repo/docs") :=
  ⟨(c10_cwd_restore "/repo/docs" "/repo" (fun s => (.ok (), s))).1 "/repo/docs" rfl,
    (c10_cwd_restore "/repo/docs" "/repo" (fun s => (.error .subprocessFailureError, s))).2
      .subprocessFailureError "/repo/docs" rfl⟩

theorem ws_not_identChar {c : Char} (h : c.isWhitespace = true) : isIdentChar c = false := by
  cases hi : isIdentChar c with
  | false => rfl
  | true => rw [identChar_not_ws hi] at h; cases h

theorem wellSeparated_cons {x : Lexeme} {ls : List Lexeme}
    (h : wellSeparated (x :: ls) = true) :
    wellSeparated ls = true ∧
      ∀ y l', ls = y :: l' → wordy x = true → startsIdent y = false := by
  cases ls with
  | nil => exact ⟨rfl, fun y l' hy => by cases hy⟩
  | cons y l' =>
    simp only [wellSeparated, Bool.and_eq_true, Bool.not_eq_true', Bool.and_eq_false_iff] at h
    refine ⟨h.2, fun y2 l2 hy hw => ?_⟩
    cases hy
    rcases h.1 with h1 | h1
    · rw [hw] at h1; cases h1
    · exact h1

theorem wellSeparated_append_right : ∀ {l1 l2 : List Lexeme},
    wellSeparated (l1 ++ l2) = true → wellSeparated l2 = true := by
  intro l1
  induction l1 with
  | nil => intro l2 h; exact h
  | cons x l1' ih =>
    intro l2 h
    exact ih (wellSeparated_cons h).1

theorem wellSeparated_append_left : ∀ {l1 l2 : List Lexeme},
    wellSeparated (l1 ++ l2) = true → wellSeparated l1 = true := by
  intro l1
  induction l1 with
  | nil => intro l2 _; rfl
  | cons x l1' ih =>
    intro l2 h
    obtain ⟨hrest, hpair⟩ := wellSeparated_cons h
    cases l1' with
    | nil => rfl
    | cons y l1'' =>
      have h2 := ih hrest
      simp only [wellSeparated, Bool.and_eq_true]
      refine ⟨?_, h2⟩
      cases hw : wordy x with
      | false => simp
      | true =>
        rw [hpair y (l1'' ++ l2) rfl hw]
        simp

theorem spelling_cases {k : OpKind} {sp : List Char} (h : sp ∈ spellings k) :
    (isIdentStr sp = true ∧ resolveOperator sp = some k) ∨
      (∃ c, sp = [c] ∧ c.isAlpha = false ∧ c.isWhitespace = false ∧ symTok c = .ok (.op k)) := by
  cases k <;> simp [spellings] at h <;>
    rcases h with rfl | rfl | rfl | rfl <;>
    first
      | exact Or.inl ⟨by decide, by decide⟩
      | exact Or.inr ⟨_, rfl, by decide, by decide, rfl⟩

theorem spelling_no_eq {k : OpKind} {sp : List Char} (h : sp ∈ spellings k) : '=' ∉ sp := by
  cases k <;> simp [spellings] at h <;>
    rcases h with rfl | rfl | rfl | rfl <;> decide

theorem render_head_not_ident {y : Lexeme} (hg : goodLexeme y = true)
    (hs : startsIdent y = false) :
    ∃ c cs, Lexeme.render y = c :: cs ∧ isIdentChar c = false := by
  cases y with
  | ws s =>
    simp only [goodLexeme, Bool.and_eq_true, Bool.not_eq_true', List.isEmpty_eq_false,
      List.all_eq_true] at hg
    rcases s with _ | ⟨c, cs⟩
    · simp at hg
    · exact ⟨c, cs, rfl, ws_not_identChar (hg.2 c (by simp))⟩
  | word n => simp [startsIdent] at hs
  | opSp k sp =>
    have hmem : sp ∈ spellings k := by
      simpa [goodLexeme] using hg
    rcases spelling_cases hmem with ⟨h1, _⟩ | ⟨c, rfl, _, _, _⟩
    · rcases sp with _ | ⟨c, cs⟩
      · exact absurd h1 (by decide)
      · refine ⟨c, cs, rfl, ?_⟩
        simpa [startsIdent] using hs
    · refine ⟨c, [], rfl, ?_⟩
      simpa [startsIdent] using hs
  | lp => exact ⟨'(', [], rfl, by decide⟩
  | rp => exact ⟨')', [], rfl, by decide⟩
  | eq => exact ⟨'=', [], rfl, by decide⟩

theorem tokenize_ws_prefix : ∀ (s rest : List Char), (∀ c ∈ s, c.isWhitespace = true) →
    tokenizeChars (s ++ rest) = tokenizeChars rest := by
  intro s
  induction s with
  | nil => intro rest _; rfl
  | cons c cs ih =>
    intro rest hall
    rw [List.cons_append, tokenize_ws_step (hall c (by simp))]
    exact ih rest fun x hx => hall x (by simp [hx])

/-- The boundary condition a well-separated continuation provides for the
greedy word scan. -/
theorem renderL_boundary {ls : List Lexeme} (hg : ∀ x ∈ ls, goodLexeme x = true)
    (hhead : ∀ y l', ls = y :: l' → startsIdent y = false) :
    headNotIdent (renderL ls) := by
  cases ls with
  | nil => exact Or.inl rfl
  | cons y l' =>
    obtain ⟨c, cs, hr, hc⟩ := render_head_not_ident (hg y (by simp)) (hhead y l' rfl)
    refine Or.inr ⟨c, cs ++ renderL l', ?_, hc⟩
    simp [renderL, List.flatMap_cons, hr]

/-- Tokenizing the rendering of a well-formed, well-separated lexeme
sequence yields exactly its token sequence. -/
theorem tokenize_renderL : ∀ ls : List Lexeme, (∀ x ∈ ls, goodLexeme x = true) →
    wellSeparated ls = true → tokenizeChars (renderL ls) = .ok (toksL ls) := by
  intro ls
  induction ls with
  | nil => intro _ _; rfl
  | cons x ls' ih =>
    intro hg hsep
    obtain ⟨hsep', hpair⟩ := wellSeparated_cons hsep
    have hgx := hg x (by simp)
    have hg' : ∀ y ∈ ls', goodLexeme y = true := fun y hy => hg y (by simp [hy])
    have ihr := ih hg' hsep'
    cases x with
    | ws s =>
      simp only [goodLexeme, Bool.and_eq_true, List.all_eq_true] at hgx
      rw [show renderL (.ws s :: ls') = s ++ renderL ls' from by simp [renderL, Lexeme.render],
        tokenize_ws_prefix s _ hgx.2, ihr]
      simp [toksL, Lexeme.toTok, List.filterMap_cons]
    | word n =>
      simp only [goodLexeme, Bool.and_eq_true, Option.isNone_iff_eq_none] at hgx
      have hbnd : headNotIdent (renderL ls') :=
        renderL_boundary hg' fun y l' hy => hpair y l' hy (by simp [wordy])
      rw [show renderL (.word n :: ls') = n ++ renderL ls' from by simp [renderL, Lexeme.render],
        tokenize_word_step hgx.1 hbnd, ihr]
      simp [consTok, classifyWord, hgx.2, toksL, Lexeme.toTok, List.filterMap_cons]
    | opSp k sp =>
      have hmem : sp ∈ spellings k := by simpa [goodLexeme] using hgx
      rcases spelling_cases hmem with ⟨h1, h2⟩ | ⟨c, rfl, ha, hw, hs⟩
      · have hwordy : wordy (.opSp k sp) = true := by
          rcases sp with _ | ⟨c, cs⟩
          · exact absurd h1 (by decide)
          · simp only [wordy, Bool.and_eq_true, Bool.not_eq_true', List.all_eq_true]
            exact ⟨by simp, isIdentStr_all h1⟩
        have hbnd : headNotIdent (renderL ls') :=
          renderL_boundary hg' fun y l' hy => hpair y l' hy hwordy
        rw [show renderL (.opSp k sp :: ls') = sp ++ renderL ls' from by simp [renderL, Lexeme.render],
          tokenize_word_step h1 hbnd, ihr]
        simp [consTok, classifyWord, h2, toksL, Lexeme.toTok, List.filterMap_cons]
      · rw [show renderL (.opSp k [c] :: ls') = c :: renderL ls' from by simp [renderL, Lexeme.render],
          tokenize_sym_ok hw ha hs, ihr]
        simp [consTok, toksL, Lexeme.toTok, List.filterMap_cons]
    | lp =>
      rw [show renderL (.lp :: ls') = '(' :: renderL ls' from by simp [renderL, Lexeme.render],
        tokenize_sym_ok (by decide) (by decide) (show symTok '(' = .ok .lparen from rfl), ihr]
      simp [consTok, toksL, Lexeme.toTok, List.filterMap_cons]
    | rp =>
      rw [show renderL (.rp :: ls') = ')' :: renderL ls' from by simp [renderL, Lexeme.render],
        tokenize_sym_ok (by decide) (by decide) (show symTok ')' = .ok .rparen from rfl), ihr]
      simp [consTok, toksL, Lexeme.toTok, List.filterMap_cons]
    | eq =>
      rw [show renderL (.eq :: ls') = '=' :: renderL ls' from by simp [renderL, Lexeme.render],
        tokenize_sym_ok (by decide) (by decide) (show symTok '=' = .ok .equals from rfl), ihr]
      simp [consTok, toksL, Lexeme.toTok, List.filterMap_cons]

theorem render_no_eq {x : Lexeme} (hg : goodLexeme x = true) (hx : x ≠ .eq) :
    '=' ∉ x.render := by
  cases x with
  | ws s =>
    simp only [goodLexeme, Bool.and_eq_true, List.all_eq_true] at hg
    intro hmem
    have := hg.2 '=' hmem
    simp at this
  | word n =>
    simp only [goodLexeme, Bool.and_eq_true] at hg
    intro hmem
    exact identChar_ne_eq (isIdentStr_all hg.1 '=' hmem) rfl
  | opSp k sp =>
    have hmem : sp ∈ spellings k := by simpa [goodLexeme] using hg
    exact spelling_no_eq hmem
  | lp => simp [Lexeme.render]
  | rp => simp [Lexeme.render]
  | eq => exact absurd rfl hx

theorem toTok_equals {x : Lexeme} (h : Lexeme.toTok x = some .equals) : x = .eq := by
  cases x <;> simp [Lexeme.toTok] at h ⊢

theorem count_render_eq : ∀ ls : List Lexeme, (∀ x ∈ ls, goodLexeme x = true) →
    (renderL ls).count '=' = ls.count .eq := by
  intro ls
  induction ls with
  | nil => intro _; rfl
  | cons x ls' ih =>
    intro hg
    rw [show renderL (x :: ls') = x.render ++ renderL ls' from by simp [renderL],
      List.count_append, ih fun y hy => hg y (by simp [hy])]
    by_cases hx : x = Lexeme.eq
    · subst hx
      rw [List.count_cons_self]
      rw [show (Lexeme.eq.render).count '=' = 1 from by decide]
      omega
    · rw [List.count_cons_of_ne (fun h => hx h.symm)]
      have h0 : (x.render).count '=' = 0 :=
        List.count_eq_zero.mpr (render_no_eq (hg x (by simp)) hx)
      omega

theorem count_toksL_eq : ∀ ls : List Lexeme,
    (toksL ls).count .equals = ls.count .eq := by
  intro ls
  induction ls with
  | nil => rfl
  | cons x ls' ih =>
    by_cases hx : x = Lexeme.eq
    · subst hx
      rw [show toksL (Lexeme.eq :: ls') = .equals :: toksL ls' from by
        simp [toksL, List.filterMap_cons, Lexeme.toTok]]
      rw [List.count_cons_self, List.count_cons_self, ih]
    · rw [List.count_cons_of_ne (fun h => hx h.symm)]
      cases htk : Lexeme.toTok x with
      | none =>
        rw [show toksL (x :: ls') = toksL ls' from by simp [toksL, List.filterMap_cons, htk]]
        exact ih
      | some tok =>
        rw [show toksL (x :: ls') = tok :: toksL ls' from by simp [toksL, List.filterMap_cons, htk]]
        have htne : tok ≠ .equals := by
          intro h
          exact hx (toTok_equals (h ▸ htk))
        rw [List.count_cons_of_ne (fun h => htne h.symm)]
        exact ih

theorem split_first_eq : ∀ ls : List Lexeme, ls.count Lexeme.eq = 1 →
    ∃ l1 l2, ls = l1 ++ .eq :: l2 ∧ Lexeme.eq ∉ l1 := by
  intro ls
  induction ls with
  | nil => intro h; simp at h
  | cons x ls' ih =>
    intro h
    by_cases hx : x = Lexeme.eq
    · subst hx
      exact ⟨[], ls', rfl, by simp⟩
    · rw [List.count_cons_of_ne (fun h => hx h.symm)] at h
      obtain ⟨l1, l2, rfl, hnot⟩ := ih h
      refine ⟨x :: l1, l2, rfl, ?_⟩
      simp only [List.mem_cons, not_or]
      exact ⟨fun h2 => hx h2.symm, hnot⟩

/-- On well-formed, well-separated lexeme sequences the facade is a function
of the token sequence alone. -/
theorem transform_render : ∀ ls : List Lexeme, (∀ x ∈ ls, goodLexeme x = true) →
    wellSeparated ls = true →
    transform_eq_to_generic_schema (String.mk (renderL ls)) = tokTransform (toksL ls) := by
  intro ls hg hsep
  have hdata : (String.mk (renderL ls)).data = renderL ls := rfl
  have hcount : (renderL ls).count '=' = (toksL ls).count .equals := by
    rw [count_render_eq ls hg, count_toksL_eq]
  by_cases hc : (toksL ls).count .equals = 1
  · obtain ⟨l1, l2, rfl, hnoteq⟩ := split_first_eq ls (by rw [← count_toksL_eq]; exact hc)
    have hg1 : ∀ x ∈ l1, goodLexeme x = true := fun x hx => hg x (by simp [hx])
    have hg2 : ∀ x ∈ l2, goodLexeme x = true := fun x hx => hg x (by simp [hx])
    have hsep1 : wellSeparated l1 = true := wellSeparated_append_left hsep
    have hsep2 : wellSeparated l2 = true :=
      (wellSeparated_cons (wellSeparated_append_right hsep)).1
    -- character-level split
    have hrender : renderL (l1 ++ Lexeme.eq :: l2) = renderL l1 ++ '=' :: renderL l2 := by
      simp [renderL, List.flatMap_append, List.flatMap_cons, Lexeme.render]
    have hchars1 : ∀ c ∈ renderL l1, (c != '=') = true := by
      intro c hcm
      simp only [renderL, List.mem_flatMap] at hcm
      obtain ⟨x, hx, hcx⟩ := hcm
      have : c ≠ '=' := by
        intro hceq
        subst hceq
        exact render_no_eq (hg1 x hx) (fun hxeq => hnoteq (hxeq ▸ hx)) hcx
      simpa using this
    have hsplitc := takeWhile_app_eq (p := fun c => c != '=') hchars1
      (Or.inr ⟨'=', renderL l2, rfl, by decide⟩)
    -- token-level split
    have htoks : toksL (l1 ++ Lexeme.eq :: l2) = toksL l1 ++ .equals :: toksL l2 := by
      simp [toksL, List.filterMap_append, List.filterMap_cons, Lexeme.toTok]
    have htoks1 : ∀ tok ∈ toksL l1, (tok != Token.equals) = true := by
      intro tok htm
      simp only [toksL, List.mem_filterMap] at htm
      obtain ⟨x, hx, hxt⟩ := htm
      have : tok ≠ .equals := by
        intro hteq
        subst hteq
        exact hnoteq ((toTok_equals hxt) ▸ hx)
      simpa using this
    have hsplitt := takeWhile_app_eq (p := fun tok => tok != Token.equals) htoks1
      (Or.inr ⟨.equals, toksL l2, rfl, by decide⟩)
    -- tokenize the two sides
    have htok1 : tokenizeChars (renderL l1) = .ok (toksL l1) := tokenize_renderL l1 hg1 hsep1
    have htok2 : tokenizeChars (renderL l2) = .ok (toksL l2) := tokenize_renderL l2 hg2 hsep2
    -- counts in split form
    have hc1 : (renderL l1 ++ '=' :: renderL l2).count '=' = 1 := by
      rw [← hrender, hcount]
      exact hc
    have hc2 : (toksL l1 ++ .equals :: toksL l2).count .equals = 1 := by
      rw [← htoks]
      exact hc
    have hdata2 : (String.mk (renderL l1 ++ '=' :: renderL l2)).data =
        renderL l1 ++ '=' :: renderL l2 := rfl
    -- evaluate both sides
    rw [show String.mk (renderL (l1 ++ Lexeme.eq :: l2)) =
      String.mk (renderL l1 ++ '=' :: renderL l2) from by rw [hrender]]
    rw [htoks]
    simp only [transform_eq_to_generic_schema, tokTransform, hdata2]
    rw [if_pos hc1, if_pos hc2]
    rw [hsplitc.1, hsplitc.2, hsplitt.1, hsplitt.2]
    simp only [List.tail_cons]
    rw [htok1, htok2]
    rcases toksL l1 with _ | ⟨tok, L'⟩
    · simp
    · cases tok with
      | ident n =>
        rcases L' with _ | ⟨tok2, L''⟩
        · cases hp : parseToks (toksL l2) <;> simp [hp]
        · simp
      | op k => simp
      | lparen => simp
      | rparen => simp
      | equals => simp
  · have h1 : transform_eq_to_generic_schema (String.mk (renderL ls)) = .error .formatError :=
      transform_eval_badcount (by rw [hdata, hcount]; exact hc)
    rw [h1, tokTransform, if_neg hc]

theorem toksL_filter : ∀ ls : List Lexeme,
    toksL (ls.filter (fun x => !x.isWs)) = toksL ls := by
  intro ls
  induction ls with
  | nil => rfl
  | cons x ls' ih =>
    cases x with
    | ws s => simpa [List.filter_cons, Lexeme.isWs, toksL, List.filterMap_cons, Lexeme.toTok]
        using ih
    | word n => simpa [List.filter_cons, Lexeme.isWs, toksL, List.filterMap_cons, Lexeme.toTok]
        using ih
    | opSp k sp => simpa [List.filter_cons, Lexeme.isWs, toksL, List.filterMap_cons, Lexeme.toTok]
        using ih
    | lp => simpa [List.filter_cons, Lexeme.isWs, toksL, List.filterMap_cons, Lexeme.toTok]
        using ih
    | rp => simpa [List.filter_cons, Lexeme.isWs, toksL, List.filterMap_cons, Lexeme.toTok]
        using ih
    | eq => simpa [List.filter_cons, Lexeme.isWs, toksL, List.filterMap_cons, Lexeme.toTok]
        using ih

/-- C2: whitespace invariance — two well-formed, well-separated lexeme
sequences that agree after erasing whitespace runs canonicalize
identically; in particular the six whitespace variants of "F = NOT A" all
produce "F=~A". -/
theorem c2_whitespace_invariance :
    (∀ ls ls' : List Lexeme,
      (∀ x ∈ ls, goodLexeme x = true) → wellSeparated ls = true →
      (∀ x ∈ ls', goodLexeme x = true) → wellSeparated ls' = true →
      ls.filter (fun x => !x.isWs) = ls'.filter (fun x => !x.isWs) →
      transform_eq_to_generic_schema (String.mk (renderL ls)) =
        transform_eq_to_generic_schema (String.mk (renderL ls'))) ∧
    (transform_eq_to_generic_schema "F    =   NOT  A" = .ok "F=~A" ∧
      transform_eq_to_generic_schema "F=   not  A  " = .ok "F=~A" ∧
      transform_eq_to_generic_schema "F  =    ~   A" = .ok "F=~A" ∧
      transform_eq_to_generic_schema "F=~A" = .ok "F=~A" ∧
      transform_eq_to_generic_schema "F = !    A   " = .ok "F=~A" ∧
      transform_eq_to_generic_schema "F =      !A" = .ok "F=~A") := by
  constructor
  · intro ls ls' hg hsep hg' hsep' hfilter
    rw [transform_render ls hg hsep, transform_render ls' hg' hsep']
    rw [show toksL ls = toksL ls' from by
      rw [← toksL_filter ls, ← toksL_filter ls', hfilter]]
  · exact ⟨rfl, rfl, rfl, rfl, rfl, rfl⟩

/-- C2 witness: whitespace invariance applied at the concrete lexeme
sequences of "F    =   NOT  A" and "F = NOT A". -/
theorem c2_whitespace_invariance_witness :
    transform_eq_to_generic_schema "F    =   NOT  A" =
      transform_eq_to_generic_schema "F = NOT A" := by
  have h := c2_whitespace_invariance.1
    [Lexeme.word "F".data, Lexeme.ws "    ".data, Lexeme.eq, Lexeme.ws "   ".data,
      Lexeme.opSp .NOT "NOT".data, Lexeme.ws "  ".data, Lexeme.word "A".data]
    [Lexeme.word "F".data, Lexeme.ws " ".data, Lexeme.eq, Lexeme.ws " ".data,
      Lexeme.opSp .NOT "NOT".data, Lexeme.ws " ".data, Lexeme.word "A".data]
    (by decide) (by decide) (by decide) (by decide) (by decide)
  exact h

/-- C4 (amended): substituting one recognized spelling of an operator kind
for another yields identical canonical output, provided the input remains
well separated (word spellings not adjacent to identifier characters). -/
theorem c4_alias_equivalence :
    ∀ (k : OpKind) (sp sp' : List Char) (ls1 ls2 : List Lexeme),
      sp ∈ spellings k → sp' ∈ spellings k →
      (∀ x ∈ ls1, goodLexeme x = true) → (∀ x ∈ ls2, goodLexeme x = true) →
      wellSeparated (ls1 ++ .opSp k sp :: ls2) = true →
      wellSeparated (ls1 ++ .opSp k sp' :: ls2) = true →
      transform_eq_to_generic_schema (String.mk (renderL (ls1 ++ .opSp k sp :: ls2))) =
        transform_eq_to_generic_schema (String.mk (renderL (ls1 ++ .opSp k sp' :: ls2))) := by
  intro k sp sp' ls1 ls2 hsp hsp' hg1 hg2 hsep hsep'
  have hgood : ∀ sp0, sp0 ∈ spellings k → ∀ x ∈ ls1 ++ Lexeme.opSp k sp0 :: ls2,
      goodLexeme x = true := by
    intro sp0 hsp0 x hx
    rcases List.mem_append.mp hx with hx1 | hx2
    · exact hg1 x hx1
    · rcases List.mem_cons.mp hx2 with rfl | hx3
      · simpa [goodLexeme] using hsp0
      · exact hg2 x hx3
  rw [transform_render _ (hgood sp hsp) hsep, transform_render _ (hgood sp' hsp') hsep']
  rw [show toksL (ls1 ++ Lexeme.opSp k sp :: ls2) = toksL (ls1 ++ Lexeme.opSp k sp' :: ls2)
    from by simp [toksL, List.filterMap_append, List.filterMap_cons, Lexeme.toTok]]

/-- C4 (amended) witness: substituting the NOT spelling "!" for "NOT" in
the well-separated input "F=NOT A". -/
theorem c4_alias_equivalence_witness :
    transform_eq_to_generic_schema "F=NOT A" = transform_eq_to_generic_schema "F=! A" := by
  have h := c4_alias_equivalence .NOT "NOT".data "!".data
    [Lexeme.word "F".data, Lexeme.eq] [Lexeme.ws " ".data, Lexeme.word "A".data]
    (by decide) (by decide) (by decide) (by decide) (by decide) (by decide)
  exact h
